import Mathlib

/-!
Shallow embedding of the do-calculus proof-search core (`probability.py`,
`causal_equiv.py`, `find_proof.py`) and verification of the spec claims.

Variables and vertices are identified by their rendered names (Python
`str(Symbol)`), values by an explicit `Value` type covering the integer and
symbolic values the code manipulates.
-/

namespace DoCalc

/-- Vertex / variable names, as produced by Python `str()`. -/
abbrev V := String

/-- A value attached to an observation or intervention (`int` or `Symbol` in
the source; floats are not needed by any claim). -/
inductive Value
  | int (n : Int)
  | sym (s : String)
deriving DecidableEq, Repr

/-- Python `str()` of a value. -/
def Value.render : Value → String
  | .int n => toString n
  | .sym s => s

/-- A condition of a causal probability term: `Do(var)` / `Do(var, value)`,
`Eq(var, value)`, or a bare observed `Symbol`.  Mirrors the three shapes the
source dispatches on (`isinstance(c, Do)`, `isinstance(c, sp.Equality)`,
bare symbol). -/
inductive Cond
  | doC (v : V) (val : Option Value)
  | eqC (v : V) (val : Value)
  | obs (v : V)
deriving DecidableEq, Repr

/-- The variable a condition is about (`cond.args[0]` for `Do`, `cond.lhs`
for `Eq`, the symbol itself otherwise). -/
def Cond.var : Cond → V
  | .doC v _ => v
  | .eqC v _ => v
  | .obs v => v

/-- Python `str(cond)`: `Do.__str__` renders `do(X)` / `do(X=v)`; sympy's
printer renders an equality as `Eq(Z, 0)`; a symbol renders as its name.
This rendering is the one used by `_state_key`. -/
def Cond.strR : Cond → String
  | .doC v none => "do(" ++ v ++ ")"
  | .doC v (some u) => "do(" ++ v ++ "=" ++ u.render ++ ")"
  | .eqC v u => "Eq(" ++ v ++ ", " ++ u.render ++ ")"
  | .obs v => v

/-- `CausalProbability._format_condition`: rendering used inside `P(...)`
display strings (`do(X=1)`, `Z=0`, `W`). -/
def Cond.fmt : Cond → String
  | .doC v none => "do(" ++ v ++ ")"
  | .doC v (some u) => "do(" ++ v ++ "=" ++ u.render ++ ")"
  | .eqC v u => v ++ "=" ++ u.render
  | .obs v => v

/-- True for intervention conditions (`isinstance(cond, Do)`). -/
def Cond.isDo : Cond → Bool
  | .doC _ _ => true
  | _ => false

/-- The outcome of a term: a bare variable or an equality `V = v`. -/
inductive Outcome
  | var (v : V)
  | eq (v : V) (val : Value)
deriving DecidableEq, Repr

/-- Python `str(outcome)` (sympy printing, used when the outcome is passed to
the d-separation oracle and by `_state_key`). -/
def Outcome.strR : Outcome → String
  | .var v => v
  | .eq v u => "Eq(" ++ v ++ ", " ++ u.render ++ ")"

/-- `CausalProbability._format_outcome` (display rendering). -/
def Outcome.fmt : Outcome → String
  | .var v => v
  | .eq v u => v ++ "=" ++ u.render

/-- `_condition_sort_key`: `Do(...)` sorts first (class 0) keyed by variable
then rendered value, then `Eq(...)` (class 1) keyed by lhs then rhs, then
everything else (class 2) keyed by its string. -/
def listLtB : List Char → List Char → Bool
  | [], [] => false
  | [], _ :: _ => true
  | _ :: _, [] => false
  | a :: as, b :: bs => if a = b then listLtB as bs else decide (a.toNat < b.toNat)

/-- Python `<` on strings: strict lexicographic comparison by code point. -/
def strLtB (a b : String) : Bool := listLtB a.data b.data

/-- Python `<=` on strings (total order, so `a <= b` iff not `b < a`). -/
def strLeB (a b : String) : Bool := !(strLtB b a)

def condKey (c : Cond) : Nat × String × String :=
  match c with
  | .doC v none => (0, v, "")
  | .doC v (some u) => (0, v, u.render)
  | .eqC v u => (1, v, u.render)
  | .obs v => (2, v, "")

/-- Lexicographic comparison of sort-key triples (Python tuple ordering). -/
def keyLEb : Nat × String × String → Nat × String × String → Bool
  | (n₁, v₁, w₁), (n₂, v₂, w₂) =>
    if n₁ < n₂ then true
    else if n₂ < n₁ then false
    else if strLtB v₁ v₂ then true
    else if strLtB v₂ v₁ then false
    else strLeB w₁ w₂

/-- Comparison used by Python `sorted(conditions, key=_condition_sort_key)`:
lexicographic on the key triple. -/
def condLE (a b : Cond) : Prop := keyLEb (condKey a) (condKey b) = true

instance : DecidableRel condLE := fun _ _ =>
  inferInstanceAs (Decidable (_ = true))

theorem listLtB_irrefl : ∀ (l : List Char), listLtB l l = false := by
  intro l
  induction l with
  | nil => rfl
  | cons a as ih => simp [listLtB, ih]

theorem listLtB_asymm :
    ∀ {l₁ l₂ : List Char}, listLtB l₁ l₂ = true → listLtB l₂ l₁ = false := by
  intro l₁
  induction l₁ with
  | nil =>
    intro l₂ h
    cases l₂ with
    | nil => rfl
    | cons b bs => rfl
  | cons a as ih =>
    intro l₂ h
    cases l₂ with
    | nil => exact absurd h (by simp [listLtB])
    | cons b bs =>
      by_cases hab : a = b
      · subst hab
        simp only [listLtB, if_pos rfl] at h ⊢
        exact ih h
      · simp only [listLtB, if_neg hab, decide_eq_true_iff] at h
        have hba : ¬ b = a := fun hh => hab hh.symm
        simp only [listLtB, if_neg hba, decide_eq_false_iff_not]
        omega

theorem listLtB_eq_of_not :
    ∀ {l₁ l₂ : List Char}, listLtB l₁ l₂ = false → listLtB l₂ l₁ = false → l₁ = l₂ := by
  intro l₁
  induction l₁ with
  | nil =>
    intro l₂ h1 _
    cases l₂ with
    | nil => rfl
    | cons b bs => exact absurd h1 (by simp [listLtB])
  | cons a as ih =>
    intro l₂ h1 h2
    cases l₂ with
    | nil => exact absurd h2 (by simp [listLtB])
    | cons b bs =>
      by_cases hab : a = b
      · subst hab
        simp only [listLtB, if_pos rfl] at h1 h2
        rw [ih h1 h2]
      · have hba : ¬ b = a := fun hh => hab hh.symm
        simp only [listLtB, if_neg hab, decide_eq_false_iff_not] at h1
        simp only [listLtB, if_neg hba, decide_eq_false_iff_not] at h2
        have : a.toNat = b.toNat := by omega
        exact absurd (Char.ext (UInt32.ext this)) hab

theorem listLtB_trans :
    ∀ {l₁ l₂ l₃ : List Char}, listLtB l₁ l₂ = true → listLtB l₂ l₃ = true →
      listLtB l₁ l₃ = true := by
  intro l₁
  induction l₁ with
  | nil =>
    intro l₂ l₃ h1 h2
    cases l₂ with
    | nil => exact h2
    | cons b bs =>
      cases l₃ with
      | nil => exact absurd h2 (by simp [listLtB])
      | cons c cs => rfl
  | cons a as ih =>
    intro l₂ l₃ h1 h2
    cases l₂ with
    | nil => exact absurd h1 (by simp [listLtB])
    | cons b bs =>
      cases l₃ with
      | nil => exact absurd h2 (by simp [listLtB])
      | cons c cs =>
        by_cases hab : a = b
        · subst hab
          simp only [listLtB, if_pos rfl] at h1
          by_cases hbc : a = c
          · subst hbc
            simp only [listLtB, if_pos rfl] at h2 ⊢
            exact ih h1 h2
          · simpa only [listLtB, if_neg hbc] using h2
        · simp only [listLtB, if_neg hab, decide_eq_true_iff] at h1
          by_cases hbc : b = c
          · subst hbc
            simp only [listLtB, if_neg hab, decide_eq_true_iff]
            exact h1
          · simp only [listLtB, if_neg hbc, decide_eq_true_iff] at h2
            have hac : ¬ a = c := by
              intro hh
              subst hh
              omega
            simp only [listLtB, if_neg hac, decide_eq_true_iff]
            omega

theorem strLtB_irrefl_str (a : String) : strLtB a a = false :=
  listLtB_irrefl a.data

theorem strLtB_asymm {a b : String} (h : strLtB a b = true) : strLtB b a = false :=
  listLtB_asymm h

theorem strLtB_eq_of_not {a b : String} (h1 : strLtB a b = false)
    (h2 : strLtB b a = false) : a = b := by
  have hd : a.data = b.data := listLtB_eq_of_not h1 h2
  cases a
  cases b
  simp_all

theorem strLtB_trans {a b c : String} (h1 : strLtB a b = true)
    (h2 : strLtB b c = true) : strLtB a c = true :=
  listLtB_trans h1 h2

theorem strLtB_or {a b c : String} (h : strLtB a c = true) :
    strLtB a b = true ∨ strLtB b c = true := by
  by_cases h1 : strLtB a b = true
  · exact Or.inl h1
  · by_cases h2 : strLtB b a = true
    · exact Or.inr (strLtB_trans h2 h)
    · have heq : a = b :=
        strLtB_eq_of_not (Bool.eq_false_iff.mpr h1) (Bool.eq_false_iff.mpr h2)
      rw [heq] at h
      exact Or.inr h

instance : IsTotal Cond condLE := by
  constructor
  intro a b
  unfold condLE keyLEb
  rcases condKey a with ⟨n₁, v₁, w₁⟩
  rcases condKey b with ⟨n₂, v₂, w₂⟩
  simp only
  rcases Nat.lt_trichotomy n₁ n₂ with h | h | h
  · left
    simp [h]
  · subst h
    simp only [lt_irrefl, if_false]
    by_cases hv : strLtB v₁ v₂ = true
    · left
      simp [hv]
    · by_cases hv' : strLtB v₂ v₁ = true
      · right
        simp [hv', hv]
      · rw [Bool.eq_false_iff.mpr hv, Bool.eq_false_iff.mpr hv']
        simp only [Bool.false_eq_true, if_false]
        unfold strLeB
        by_cases hw : strLtB w₂ w₁ = true
        · right
          rw [strLtB_asymm hw]
          simp
        · left
          rw [Bool.eq_false_iff.mpr hw]
          simp
  · right
    simp [h, Nat.lt_asymm h]

instance : IsTrans Cond condLE := by
  constructor
  intro a b c
  unfold condLE keyLEb
  rcases condKey a with ⟨n₁, v₁, w₁⟩
  rcases condKey b with ⟨n₂, v₂, w₂⟩
  rcases condKey c with ⟨n₃, v₃, w₃⟩
  simp only
  intro h1 h2
  by_cases h12 : n₁ < n₂
  · have h13 : n₁ < n₃ := by
      by_contra hc
      rcases Nat.lt_trichotomy n₂ n₃ with h | h | h <;> simp_all <;> omega
    simp [h13]
  · by_cases h21 : n₂ < n₁
    · simp [h12, h21] at h1
    · have hn : n₁ = n₂ := by omega
      subst hn
      simp only [if_neg h12, if_neg h21] at h1 ⊢
      by_cases h23 : n₁ < n₃
      · simp [h23]
      · by_cases h32 : n₃ < n₁
        · simp [h23, h32] at h2
        · simp only [if_neg h23, if_neg h32] at h2 ⊢
          by_cases hv12 : strLtB v₁ v₂ = true
          · by_cases hv23 : strLtB v₂ v₃ = true
            · simp [strLtB_trans hv12 hv23]
            · by_cases hv32 : strLtB v₃ v₂ = true
              · simp [hv23, hv32] at h2
              · have : v₂ = v₃ :=
                  strLtB_eq_of_not (Bool.eq_false_iff.mpr hv23) (Bool.eq_false_iff.mpr hv32)
                subst this
                simp [hv12]
          · by_cases hv21 : strLtB v₂ v₁ = true
            · simp [hv12, hv21] at h1
            · have hveq : v₁ = v₂ :=
                strLtB_eq_of_not (Bool.eq_false_iff.mpr hv12) (Bool.eq_false_iff.mpr hv21)
              subst hveq
              simp only [if_neg hv12, if_neg hv21] at h1 ⊢
              by_cases hv13 : strLtB v₁ v₃ = true
              · simp [hv13]
              · by_cases hv31 : strLtB v₃ v₁ = true
                · simp [hv13, hv31] at h2
                · simp only [if_neg hv13, if_neg hv31] at h2 ⊢
                  unfold strLeB at h1 h2 ⊢
                  simp only [Bool.not_eq_true'] at h1 h2 ⊢
                  by_contra hc
                  simp only [Bool.not_eq_false] at hc
                  rcases strLtB_or (b := w₂) hc with h | h
                  · simp [h] at h2
                  · simp [h] at h1

/-- `sorted(conditions, key=_condition_sort_key)` (Python's sort is stable;
insertion sort is the matching stable sort). -/
def sortConds (cs : List Cond) : List Cond := List.insertionSort condLE cs

/-- A causal probability term `P(outcome | conditions)`.  `CausalProbability`
objects always carry their conditions in the canonically sorted order fixed
at construction time (`__new__`). -/
structure Term where
  outcome : Outcome
  conds : List Cond
deriving DecidableEq, Repr

/-- `CausalProbability.__new__`: sort the conditions by `_condition_sort_key`
and store them; no deduplication of any kind happens here. -/
def mkTerm (y : Outcome) (cs : List Cond) : Term := ⟨y, sortConds cs⟩

/-- `CausalProbability.__str__`: `P(Y)` with no conditions, otherwise
`P(Y | c₁, c₂, …)` with the conditions in stored order. -/
def Term.render (t : Term) : String :=
  if t.conds.isEmpty then "P(" ++ t.outcome.fmt ++ ")"
  else
    "P(" ++ t.outcome.fmt ++ " | "
      ++ String.intercalate ", " (t.conds.map Cond.fmt) ++ ")"

example : (mkTerm (.var "Y") [.obs "Z", .doC "X" none]).render = "P(Y | do(X), Z)" := by
  decide

example :
    (mkTerm (.eq "Y" (.int 1)) [.eqC "Z" (.int 3), .doC "X" (.int 0 |> some)]).render
      = "P(Y=1 | do(X=0), Z=3)" := by
  decide

end DoCalc

namespace DoCalc

/-! ### Directed graphs (`networkx.DiGraph` as used by the source) -/

/-- A directed graph: node list plus edge list.  Node/edge multiplicity is
irrelevant (all uses are membership tests), matching `networkx` semantics. -/
structure DiGraph where
  nodes : List V
  edges : List (V × V)
deriving DecidableEq, Repr

/-- Successor list of a vertex (`graph.successors`). -/
def DiGraph.succs (g : DiGraph) (v : V) : List V :=
  (g.edges.filter (fun e => e.1 == v)).map (·.2)

/-- Predecessor list of a vertex (`graph.predecessors`). -/
def DiGraph.preds (g : DiGraph) (v : V) : List V :=
  (g.edges.filter (fun e => e.2 == v)).map (·.1)

theorem mem_succs {g : DiGraph} {v w : V} : w ∈ g.succs v ↔ (v, w) ∈ g.edges := by
  unfold DiGraph.succs
  constructor
  · intro h
    obtain ⟨e, he, hw⟩ := List.mem_map.mp h
    obtain ⟨hmem, hv⟩ := List.mem_filter.mp he
    have hv' : e.1 = v := by simpa using hv
    have he' : e = (v, w) := by
      cases e
      simp_all
    rwa [he'] at hmem
  · intro h
    exact List.mem_map.mpr ⟨(v, w), List.mem_filter.mpr ⟨h, by simp⟩, rfl⟩

theorem mem_preds {g : DiGraph} {v w : V} : w ∈ g.preds v ↔ (w, v) ∈ g.edges := by
  unfold DiGraph.preds
  constructor
  · intro h
    obtain ⟨e, he, hw⟩ := List.mem_map.mp h
    obtain ⟨hmem, hv⟩ := List.mem_filter.mp he
    have hv' : e.2 = v := by simpa using hv
    have he' : e = (w, v) := by
      cases e
      simp_all
    rwa [he'] at hmem
  · intro h
    exact List.mem_map.mpr ⟨(w, v), List.mem_filter.mpr ⟨h, by simp⟩, rfl⟩

/-! ### A verified saturation-based reachability procedure

Models the reachability queries the source delegates to `networkx`
(`nx.ancestors`, `nx.has_path`, undirected connectivity of the moral graph,
cycle detection). -/

/-- Append to `seen` every element of the second list not already present,
keeping `seen` duplicate-free. -/
def addNew (seen : List V) : List V → List V
  | [] => seen
  | x :: xs => if x ∈ seen then addNew seen xs else addNew (seen ++ [x]) xs

theorem mem_addNew {seen l : List V} {y : V} :
    y ∈ addNew seen l ↔ y ∈ seen ∨ y ∈ l := by
  induction l generalizing seen with
  | nil => simp [addNew]
  | cons x xs ih =>
    by_cases hx : x ∈ seen
    · simp only [addNew, if_pos hx, ih, List.mem_cons]
      constructor
      · rintro (h | h)
        · exact Or.inl h
        · exact Or.inr (Or.inr h)
      · rintro (h | rfl | h)
        · exact Or.inl h
        · exact Or.inl hx
        · exact Or.inr h
    · simp only [addNew, if_neg hx, ih, List.mem_append, List.mem_singleton,
        List.mem_cons]
      tauto

theorem addNew_append {seen l : List V} : ∃ ex, addNew seen l = seen ++ ex := by
  induction l generalizing seen with
  | nil => exact ⟨[], by simp [addNew]⟩
  | cons x xs ih =>
    by_cases hx : x ∈ seen
    · simpa [addNew, if_pos hx] using ih
    · obtain ⟨ex, hex⟩ := @ih (seen ++ [x])
      exact ⟨[x] ++ ex, by simp [addNew, if_neg hx, hex]⟩

theorem addNew_nodup {seen l : List V} (h : seen.Nodup) : (addNew seen l).Nodup := by
  induction l generalizing seen with
  | nil => exact h
  | cons x xs ih =>
    by_cases hx : x ∈ seen
    · simpa [addNew, if_pos hx] using ih h
    · refine ?_
      have h' : (seen ++ [x]).Nodup := by
        simp [List.nodup_append, h, hx]
      simpa [addNew, if_neg hx] using ih h'

/-- One saturation step: add all neighbours of already-reached vertices. -/
def stepSat (nbr : V → List V) (seen : List V) : List V :=
  addNew seen (seen.flatMap nbr)

/-- Iterate `stepSat` until a fixpoint is reached or the fuel runs out. -/
def satAux (nbr : V → List V) : Nat → List V → List V
  | 0, seen => seen
  | n + 1, seen =>
    if stepSat nbr seen = seen then seen else satAux nbr n (stepSat nbr seen)

theorem satAux_sound (nbr : V → List V) :
    ∀ (n : Nat) (seen : List V) (x : V), x ∈ satAux nbr n seen →
      ∃ y ∈ seen, Relation.ReflTransGen (fun a b => b ∈ nbr a) y x := by
  intro n
  induction n with
  | zero => exact fun seen x hx => ⟨x, hx, .refl⟩
  | succ n ih =>
    intro seen x hx
    by_cases hfix : stepSat nbr seen = seen
    · simp only [satAux, if_pos hfix] at hx
      exact ⟨x, hx, .refl⟩
    · simp only [satAux, if_neg hfix] at hx
      obtain ⟨y, hy, hr⟩ := ih _ x hx
      rcases mem_addNew.mp hy with h | h
      · exact ⟨y, h, hr⟩
      · obtain ⟨z, hz, hzy⟩ := List.mem_flatMap.mp h
        exact ⟨z, hz, .trans (.single hzy) hr⟩

theorem length_le_card {l : List V} {u : Finset V} (hn : l.Nodup)
    (hsub : ∀ x ∈ l, x ∈ u) : l.length ≤ u.card := by
  have h1 : l.toFinset.card = l.length := List.toFinset_card_of_nodup hn
  have h2 : l.toFinset ⊆ u := by
    intro x hx
    exact hsub x (List.mem_toFinset.mp hx)
  calc l.length = l.toFinset.card := h1.symm
    _ ≤ u.card := Finset.card_le_card h2

theorem satAux_isFix {nbr : V → List V} {u : Finset V}
    (hnbr : ∀ v w, w ∈ nbr v → w ∈ u) :
    ∀ (n : Nat) (seen : List V), seen.Nodup → (∀ x ∈ seen, x ∈ u) →
      u.card < seen.length + n →
      stepSat nbr (satAux nbr n seen) = satAux nbr n seen := by
  intro n
  induction n with
  | zero =>
    intro seen hn hsub hlt
    exact absurd (length_le_card hn hsub) (by omega)
  | succ n ih =>
    intro seen hn hsub hlt
    by_cases hfix : stepSat nbr seen = seen
    · simpa [satAux, if_pos hfix] using hfix
    · simp only [satAux, if_neg hfix]
      obtain ⟨ex, hex⟩ := @addNew_append seen (seen.flatMap nbr)
      have hexne : ex ≠ [] := by
        intro h
        exact hfix (by simpa [stepSat, h] using hex)
      have hlen : seen.length + 1 ≤ (stepSat nbr seen).length := by
        have : (stepSat nbr seen).length = seen.length + ex.length := by
          simp [stepSat, hex]
        have : 1 ≤ ex.length := by
          cases ex with
          | nil => exact absurd rfl hexne
          | cons a t => simp
        simp [stepSat, hex]
        omega
      refine ih (stepSat nbr seen) (addNew_nodup hn) ?_ (by omega)
      intro x hx
      rcases mem_addNew.mp hx with h | h
      · exact hsub x h
      · obtain ⟨z, _, hzx⟩ := List.mem_flatMap.mp h
        exact hnbr z x hzx

theorem mem_of_fix {nbr : V → List V} {S : List V}
    (hfix : stepSat nbr S = S) {x y : V} (hx : x ∈ S)
    (hr : Relation.ReflTransGen (fun a b => b ∈ nbr a) x y) : y ∈ S := by
  induction hr with
  | refl => exact hx
  | tail _ hstep ih =>
    rename_i b c _
    have : c ∈ stepSat nbr S := by
      exact mem_addNew.mpr (Or.inr (List.mem_flatMap.mpr ⟨b, ih, hstep⟩))
    rwa [hfix] at this

theorem satAux_sub (nbr : V → List V) :
    ∀ (n : Nat) (seen : List V), ∀ x ∈ seen, x ∈ satAux nbr n seen := by
  intro n
  induction n with
  | zero => exact fun seen x hx => hx
  | succ n ih =>
    intro seen x hx
    by_cases hfix : stepSat nbr seen = seen
    · simpa [satAux, if_pos hfix] using hx
    · simp only [satAux, if_neg hfix]
      exact ih _ x (mem_addNew.mpr (Or.inl hx))

/-- All vertices reachable from `s` along `nbr` steps; `dom` must contain
every possible `nbr` output and bounds the iteration count. -/
def reachList (nbr : V → List V) (dom : List V) (s : V) : List V :=
  satAux nbr (dom.length + 1) [s]

theorem mem_reachList {nbr : V → List V} {dom : List V}
    (hnbr : ∀ v w, w ∈ nbr v → w ∈ dom) (s x : V) :
    x ∈ reachList nbr dom s ↔
      Relation.ReflTransGen (fun a b => b ∈ nbr a) s x := by
  constructor
  · intro hx
    obtain ⟨y, hy, hr⟩ := satAux_sound nbr _ _ _ hx
    have hys : y = s := List.mem_singleton.mp hy
    exact hys ▸ hr
  · intro hr
    have hu : ∀ v w, w ∈ nbr v → w ∈ insert s dom.toFinset := by
      intro v w hw
      exact Finset.mem_insert_of_mem (List.mem_toFinset.mpr (hnbr v w hw))
    have hfix : stepSat nbr (reachList nbr dom s) = reachList nbr dom s := by
      refine satAux_isFix hu (dom.length + 1) [s] (by simp) ?_ ?_
      · intro y hy
        have hys : y = s := List.mem_singleton.mp hy
        rw [hys]
        exact Finset.mem_insert_self s _
      · have h1 : (insert s dom.toFinset).card ≤ dom.toFinset.card + 1 :=
          Finset.card_insert_le s _
        have h2 : dom.toFinset.card ≤ dom.length := dom.toFinset_card_le
        simp only [List.length_singleton]
        omega
    have hs : s ∈ reachList nbr dom s := satAux_sub nbr _ [s] s (by simp)
    exact mem_of_fix hfix hs hr

/-- `nx.has_path` on the directed graph, for vertices known to be present
(the raising behaviour on absent endpoints is modelled at call sites). -/
def dirReachB (g : DiGraph) (s t : V) : Bool :=
  decide (t ∈ reachList g.succs (g.edges.map (·.2)) s)

theorem dirReachB_iff {g : DiGraph} {s t : V} :
    dirReachB g s t = true ↔
      Relation.ReflTransGen (fun a b => (a, b) ∈ g.edges) s t := by
  have hnbr : ∀ v w, w ∈ g.succs v → w ∈ g.edges.map (·.2) := by
    intro v w hw
    exact List.mem_map.mpr ⟨(v, w), mem_succs.mp hw, rfl⟩
  have heq : (fun a b => b ∈ g.succs a) = fun a b => (a, b) ∈ g.edges := by
    funext a b
    exact propext mem_succs
  rw [dirReachB, decide_eq_true_iff, mem_reachList hnbr, heq]

end DoCalc

namespace DoCalc

/-! ### The d-separation oracle (`is_d_separated` in `causal_equiv.py`) -/

/-- `nx.ancestors(g, n) ∪ {n}`: every vertex with a directed path to `n`.
`nx.ancestors` raises when `n` is absent from the graph; that raising
behaviour is modelled in `is_d_separated` below. -/
def ancWith (g : DiGraph) (n : V) : List V :=
  reachList g.preds (g.edges.map (·.1)) n

theorem mem_ancWith {g : DiGraph} {n x : V} :
    x ∈ ancWith g n ↔ Relation.ReflTransGen (fun a b => (b, a) ∈ g.edges) n x := by
  have hnbr : ∀ v w, w ∈ g.preds v → w ∈ g.edges.map (·.1) := by
    intro v w hw
    exact List.mem_map.mpr ⟨(w, v), mem_preds.mp hw, rfl⟩
  have heq : (fun a b => b ∈ g.preds a) = fun a b => (b, a) ∈ g.edges := by
    funext a b
    exact propext mem_preds
  rw [ancWith, mem_reachList hnbr, heq]

/-- The ancestral closure of the nodes of interest (step 3 of the
algorithm): `{s, t} ∪ Z` plus all their ancestors. -/
def ancClosure (g : DiGraph) (noi : Finset V) : Finset V :=
  noi.biUnion (fun n => (ancWith g n).toFinset)

/-- Nodes of the induced ancestral subgraph `G[A]`. -/
def ancNodes (g : DiGraph) (noi : Finset V) : List V :=
  g.nodes.filter (fun v => decide (v ∈ ancClosure g noi))

/-- Edges of the induced ancestral subgraph `G[A]`. -/
def ancEdges (g : DiGraph) (noi : Finset V) : List (V × V) :=
  g.edges.filter (fun e =>
    decide (e.1 ∈ ancNodes g noi) && decide (e.2 ∈ ancNodes g noi))

/-- Adjacency of the moral graph of `G[A]` (skeleton plus an edge between
every pair of distinct co-parents). -/
def moralAdj (g : DiGraph) (noi : Finset V) (a b : V) : Bool :=
  decide ((a, b) ∈ ancEdges g noi) || decide ((b, a) ∈ ancEdges g noi) ||
    (decide (a ≠ b) &&
      (ancNodes g noi).any (fun c =>
        decide ((a, c) ∈ ancEdges g noi) && decide ((b, c) ∈ ancEdges g noi)))

theorem moralAdj_symm (g : DiGraph) (noi : Finset V) (a b : V) :
    moralAdj g noi a b = moralAdj g noi b a := by
  unfold moralAdj
  have h1 : ((ancNodes g noi).any fun c =>
      decide ((a, c) ∈ ancEdges g noi) && decide ((b, c) ∈ ancEdges g noi)) =
      ((ancNodes g noi).any fun c =>
        decide ((b, c) ∈ ancEdges g noi) && decide ((a, c) ∈ ancEdges g noi)) := by
    refine congrArg _ ?_
    funext c
    exact Bool.and_comm _ _
  have h2 : (decide (a ≠ b)) = (decide (b ≠ a)) := by
    simp [ne_comm]
  rw [h1, h2]
  rw [Bool.or_comm (decide ((a, b) ∈ ancEdges g noi)) (decide ((b, a) ∈ ancEdges g noi))]

/-- Nodes surviving step 6 (`moral.remove_nodes_from(Z)`). -/
def moralKeep (g : DiGraph) (noi : Finset V) (Z : Finset V) : List V :=
  (ancNodes g noi).filter (fun v => decide (v ∉ Z))

/-- Undirected connectivity in the moral graph after removing `Z`
(`nx.has_path(moral, start, end)`). -/
def moralConn (g : DiGraph) (noi : Finset V) (Z : Finset V) (s t : V) : Bool :=
  decide (t ∈ reachList
    (fun v => (moralKeep g noi Z).filter (fun w => moralAdj g noi v w))
    (moralKeep g noi Z) s)

/-- `is_d_separated(graph, start, end, conditioned_set)`: the
ancestral-moralization d-separation test.  Returns `.error ()` exactly when
the Python function raises, which happens iff (after the two early returns)
some conditioning vertex is absent from the graph and `nx.ancestors` is
asked for its ancestors. -/
def is_d_separated (g : DiGraph) (s t : V) (Z : Finset V) : Except Unit Bool :=
  if s = t then .ok false
  else if s ∉ g.nodes ∨ t ∉ g.nodes then .ok true
  else if ∃ z ∈ Z, z ∉ g.nodes then .error ()
  else
    if s ∉ moralKeep g (insert s (insert t Z)) Z ∨
        t ∉ moralKeep g (insert s (insert t Z)) Z then .ok true
    else .ok (!moralConn g (insert s (insert t Z)) Z s t)

/-- The step relation of the undirected walk in the pruned moral graph. -/
def moralRel (g : DiGraph) (noi : Finset V) (Z : Finset V) (a b : V) : Prop :=
  b ∈ moralKeep g noi Z ∧ moralAdj g noi a b = true

theorem moralConn_iff {g : DiGraph} {noi Z : Finset V} {s t : V} :
    moralConn g noi Z s t = true ↔
      Relation.ReflTransGen (moralRel g noi Z) s t := by
  have hnbr : ∀ v w,
      w ∈ (moralKeep g noi Z).filter (fun w => moralAdj g noi v w) →
        w ∈ moralKeep g noi Z := by
    intro v w hw
    exact (List.mem_filter.mp hw).1
  rw [moralConn, decide_eq_true_iff, mem_reachList hnbr]
  have heq : (fun a b =>
      b ∈ (moralKeep g noi Z).filter (fun w => moralAdj g noi a w)) =
      moralRel g noi Z := by
    funext a b
    simp [moralRel, List.mem_filter]
  rw [heq]

/-- Within the kept vertex set the walk relation is symmetric. -/
def moralRelK (g : DiGraph) (noi : Finset V) (Z : Finset V) (a b : V) : Prop :=
  a ∈ moralKeep g noi Z ∧ b ∈ moralKeep g noi Z ∧ moralAdj g noi a b = true

theorem moralRelK_symm (g : DiGraph) (noi Z : Finset V) :
    Symmetric (moralRelK g noi Z) := by
  intro a b ⟨ha, hb, hadj⟩
  exact ⟨hb, ha, by rw [moralAdj_symm]; exact hadj⟩

theorem rtg_moralRel_iff {g : DiGraph} {noi Z : Finset V} {s x : V}
    (hs : s ∈ moralKeep g noi Z) :
    Relation.ReflTransGen (moralRel g noi Z) s x ↔
      Relation.ReflTransGen (moralRelK g noi Z) s x := by
  constructor
  · intro h
    induction h with
    | refl => exact .refl
    | tail hab hbc ih =>
      rename_i b c
      have hbkeep : b ∈ moralKeep g noi Z := by
        rcases Relation.ReflTransGen.cases_tail ih with h | ⟨d, _, hdb⟩
        · exact h ▸ hs
        · exact hdb.2.1
      exact .tail ih ⟨hbkeep, hbc.1, hbc.2⟩
  · intro h
    exact Relation.ReflTransGen.mono (fun a b hab => ⟨hab.2.1, hab.2.2⟩) h

theorem moralConn_symm {g : DiGraph} {noi Z : Finset V} {s t : V}
    (hs : s ∈ moralKeep g noi Z) (ht : t ∈ moralKeep g noi Z) :
    moralConn g noi Z s t = moralConn g noi Z t s := by
  have hiff : moralConn g noi Z s t = true ↔ moralConn g noi Z t s = true := by
    rw [moralConn_iff, moralConn_iff, rtg_moralRel_iff hs, rtg_moralRel_iff ht]
    constructor
    · intro h
      exact (Relation.ReflTransGen.symmetric (moralRelK_symm g noi Z)) h
    · intro h
      exact (Relation.ReflTransGen.symmetric (moralRelK_symm g noi Z)) h
  by_cases h : moralConn g noi Z s t = true
  · rw [h, hiff.mp h]
  · have h' : ¬ moralConn g noi Z t s = true := fun hc => h (hiff.mpr hc)
    rw [Bool.not_eq_true] at h h'
    rw [h, h']

end DoCalc

namespace DoCalc

/-! ### Graph mutators and the rule enumerators (`causal_equiv.py`) -/

/-- `_create_intervention_graph` / the per-variable "bar" loops: remove every
edge whose head is one of the given variables. -/
def barGraph (g : DiGraph) (xs : List V) : DiGraph :=
  ⟨g.nodes, g.edges.filter (fun e => decide (e.2 ∉ xs))⟩

/-- The "underline Z" step of Rule 2: remove every edge leaving `z`. -/
def underline (g : DiGraph) (z : V) : DiGraph :=
  ⟨g.nodes, g.edges.filter (fun e => decide (e.1 ≠ z))⟩

/-- `do_vars` extraction: `cond.args[0]` for each `Do` condition. -/
def doVarsOf (cs : List Cond) : List V :=
  cs.filterMap fun c =>
    match c with
    | .doC v _ => some v
    | _ => none

/-- `obs_vars` extraction: `cond.lhs` for an equality, the symbol otherwise. -/
def obsVarsOf (cs : List Cond) : List V :=
  cs.filterMap fun c =>
    match c with
    | .doC _ _ => none
    | .eqC v _ => some v
    | .obs v => some v

/-- `_custom_d_separation`: stringify the endpoints and the conditioning
variables (a Python `set`) and query the oracle. -/
def customDSep (g : DiGraph) (x y : V) (zs : List V) : Except Unit Bool :=
  is_d_separated g x y zs.toFinset

/-- The Rule 1 drop: remove the bare observation `w` and any equality
condition whose lhs is `w` (the `c == W` / `c.lhs == W` branches). -/
def dropObsVar (cs : List Cond) (w : V) : List Cond :=
  cs.filter fun c =>
    match c with
    | .doC _ _ => true
    | .eqC v _ => decide (v ≠ w)
    | .obs v => decide (v ≠ w)

/-- The `seen` string-set deduplication used by all three enumerators:
keep the first candidate for each rendered string. -/
def dedupByRender : List String → List Term → List Term
  | _, [] => []
  | seen, t :: ts =>
    if t.render ∈ seen then dedupByRender seen ts
    else t :: dedupByRender (t.render :: seen) ts

/-- `apply_rule_1_all`: for each observed variable `W`, test
`Y ⟂ W | do-vars ∪ (obs-vars \ W)` in `G_{bar do-vars}` and emit the term
with the observation(s) of `W` dropped; oracle exceptions skip the
candidate; results deduplicated by rendered string. -/
def rule1Cand (g : DiGraph) (t : Term) (w : V) : Option Term :=
  match customDSep (barGraph g (doVarsOf t.conds)) t.outcome.strR w
      (doVarsOf t.conds ++ (obsVarsOf t.conds).filter (fun v => decide (v ≠ w))) with
  | .ok true => some (mkTerm t.outcome (dropObsVar t.conds w))
  | _ => none

/-- The full Rule 1 enumerator: one candidate per observed variable,
deduplicated by rendered string. -/
def apply_rule_1_all (g : DiGraph) (t : Term) : List Term :=
  if t.conds.isEmpty then []
  else dedupByRender [] ((obsVarsOf t.conds).filterMap (rule1Cand g t))

/-- Positions of the `Do` conditions (`do_indices`). -/
def doIdxs (cs : List Cond) : List Nat :=
  cs.enum.filterMap fun p =>
    match p.2 with
    | .doC _ _ => some p.1
    | _ => none

/-- Variable of the condition at index `i` (used only at `Do` positions). -/
def condVarAt (cs : List Cond) (i : Nat) : V :=
  (cs.getD i (.obs "")).var

/-- `apply_rule_2_all`: for each `do` position `idx` with variable `Z`, bar
all other do-variables, underline `Z`, test `Y ⟂ Z | other-do ∪ obs` and
emit the term with the condition at `idx` replaced by the bare observation
`Z` (`new_conditions[idx] = Z`). -/
def otherDoVars (cs : List Cond) (idx : Nat) : List V :=
  ((doIdxs cs).filter (fun j => decide (j ≠ idx))).map (condVarAt cs)

def rule2Cand (g : DiGraph) (t : Term) (idx : Nat) : Option Term :=
  match customDSep
      (underline (barGraph g (otherDoVars t.conds idx)) (condVarAt t.conds idx))
      t.outcome.strR (condVarAt t.conds idx)
      (otherDoVars t.conds idx ++ obsVarsOf t.conds) with
  | .ok true => some (mkTerm t.outcome (t.conds.set idx (.obs (condVarAt t.conds idx))))
  | _ => none

/-- The full Rule 2 enumerator: one candidate per `do` position,
deduplicated by rendered string. -/
def apply_rule_2_all (g : DiGraph) (t : Term) : List Term :=
  dedupByRender [] ((doIdxs t.conds).filterMap (rule2Cand g t))

/-- The Rule 3 ancestor scan: `nx.has_path(g_bar, Z, W)` for each observed
`W`.  `nx.has_path` raises `NodeNotFound` when either endpoint is missing,
and the loop's `except nx.NetworkXError` clause does not catch
`NodeNotFound`, so the whole enumerator raises in that case. -/
def ancLoop (gbar : DiGraph) (z : V) : List V → Except Unit Bool
  | [] => .ok false
  | w :: ws =>
    if z ∉ gbar.nodes ∨ w ∉ gbar.nodes then .error ()
    else if dirReachB gbar z w then .ok true
    else ancLoop gbar z ws

/-- One Rule 3 iteration at `do` position `idx`: bar the kept do-variables,
possibly bar `Z` (when `Z` is not an ancestor of any observed variable),
test `Y ⟂ Z | kept-do ∪ obs`, and emit the term with position `idx`
deleted. -/
def rule3At (g : DiGraph) (t : Term) (idx : Nat) : Except Unit (Option Term) :=
  match ancLoop (barGraph g (otherDoVars t.conds idx)) (condVarAt t.conds idx)
      (obsVarsOf t.conds) with
  | .error _ => .error ()
  | .ok isAnc =>
    match customDSep
        (if isAnc then barGraph g (otherDoVars t.conds idx)
         else barGraph (barGraph g (otherDoVars t.conds idx)) [condVarAt t.conds idx])
        t.outcome.strR (condVarAt t.conds idx)
        (otherDoVars t.conds idx ++ obsVarsOf t.conds) with
    | .ok true => .ok (some (mkTerm t.outcome (t.conds.eraseIdx idx)))
    | _ => .ok none

/-- Collect the Rule 3 candidates over the do positions, propagating an
uncaught exception. -/
def rule3Collect (g : DiGraph) (t : Term) : List Nat → Except Unit (List Term)
  | [] => .ok []
  | i :: rest =>
    match rule3At g t i with
    | .error _ => .error ()
    | .ok none => rule3Collect g t rest
    | .ok (some c) =>
      match rule3Collect g t rest with
      | .error _ => .error ()
      | .ok others => .ok (c :: others)

/-- `apply_rule_3_all`, with the uncaught `NodeNotFound` of the ancestor
scan surfacing as `.error`. -/
def apply_rule_3_all (g : DiGraph) (t : Term) : Except Unit (List Term) :=
  match rule3Collect g t (doIdxs t.conds) with
  | .error _ => .error ()
  | .ok outs => .ok (dedupByRender [] outs)

/-! ### Proof search plumbing (`find_proof.py`) -/

/-- `_are_expressions_equivalent`: same outcome, same set of `Do`
conditions, same set of observed conditions. -/
def condSubset (a b : List Cond) : Bool := a.all (fun c => decide (c ∈ b))

/-- Structural equivalence of two terms (set semantics on conditions). -/
def equivB (t₁ t₂ : Term) : Bool :=
  (t₁.outcome == t₂.outcome) &&
    condSubset (t₁.conds.filter Cond.isDo) (t₂.conds.filter Cond.isDo) &&
    condSubset (t₂.conds.filter Cond.isDo) (t₁.conds.filter Cond.isDo) &&
    condSubset (t₁.conds.filter (fun c => !c.isDo)) (t₂.conds.filter (fun c => !c.isDo)) &&
    condSubset (t₂.conds.filter (fun c => !c.isDo)) (t₁.conds.filter (fun c => !c.isDo))

/-- The code-point order on strings, as a relation for sorting. -/
def strLE (a b : String) : Prop := strLeB a b = true

instance : DecidableRel strLE := fun _ _ =>
  inferInstanceAs (Decidable (_ = true))

/-- Python `sorted` on strings. -/
def sortStrings (l : List String) : List String :=
  List.insertionSort strLE l

/-- `_state_key`: `Y={outcome}|DO={sorted do strings}|OBS={sorted obs
strings}` over the `str()` renderings. -/
def stateKey (t : Term) : String :=
  "Y=" ++ t.outcome.strR ++ "|DO="
    ++ String.intercalate "," (sortStrings ((t.conds.filter Cond.isDo).map Cond.strR))
    ++ "|OBS="
    ++ String.intercalate ","
      (sortStrings ((t.conds.filter (fun c => !c.isDo)).map Cond.strR))

/-- Keep the first successor for each state key (`uniq` loop of
`_do_calculus_successors`). -/
def dedupByKey : List String → List (String × Term) → List (String × Term)
  | _, [] => []
  | seen, p :: ps =>
    if stateKey p.2 ∈ seen then dedupByKey seen ps
    else p :: dedupByKey (stateKey p.2 :: seen) ps

/-- `_do_calculus_successors`: all labelled one-step rewrites, rules in
order 1, 2, 3, skipping successors equivalent to the input, deduplicated by
state key; a rule whose enumerator raises contributes nothing. -/
def rule3Outs (g : DiGraph) (t : Term) : List Term :=
  match apply_rule_3_all g t with
  | .ok outs => outs
  | .error _ => []

def rawSuccessors (g : DiGraph) (t : Term) : List (String × Term) :=
  (apply_rule_1_all g t).map (fun o => ("Do-calculus Rule 1", o)) ++
    (apply_rule_2_all g t).map (fun o => ("Do-calculus Rule 2", o)) ++
    (rule3Outs g t).map (fun o => ("Do-calculus Rule 3", o))

def successors (g : DiGraph) (t : Term) : List (String × Term) :=
  dedupByKey [] ((rawSuccessors g t).filter (fun p => !equivB p.2 t))

end DoCalc

namespace DoCalc

/-! ### Breadth-first proof search (`_find_proof_single`) -/

/-- A proof path: the `[(rule_label, expr), …]` list built by the BFS. -/
abbrev ProofPath := List (String × Term)

/-- The goal test applied to a dequeued or freshly generated term. -/
def goalHit (target cur : Term) : Bool :=
  equivB cur target || (stateKey cur == stateKey target)

/-- The inner `for rule_label, nxt in successors` loop: skip visited keys,
record fresh keys, return early on a goal hit, otherwise extend the queue.
Returns the updated visited list, the entries to enqueue, and the found
path, if any. -/
def procSuccs (target : Term) (path : ProofPath) :
    List (String × Term) → List String → List (Term × ProofPath) →
      List String × List (Term × ProofPath) × Option ProofPath
  | [], visited, acc => (visited, acc, none)
  | (lbl, nxt) :: ss, visited, acc =>
    if stateKey nxt ∈ visited then procSuccs target path ss visited acc
    else if goalHit target nxt then
      (stateKey nxt :: visited, acc, some (path ++ [(lbl, nxt)]))
    else procSuccs target path ss (stateKey nxt :: visited)
      (acc ++ [(nxt, path ++ [(lbl, nxt)])])

/-- The BFS `while queue` loop, with explicit fuel (the Python loop always
terminates because the visited set is bounded; the fuel in
`find_proof_single` below is larger than any possible iteration count). -/
def bfsLoop (g : DiGraph) (target : Term) (maxDepth : Nat) :
    Nat → List (Term × ProofPath) → List String → Option ProofPath
  | 0, _, _ => none
  | _ + 1, [], _ => none
  | fuel + 1, (cur, path) :: rest, visited =>
    if maxDepth ≤ path.length then bfsLoop g target maxDepth fuel rest visited
    else if goalHit target cur then some path
    else
      match procSuccs target path (successors g cur) visited [] with
      | (_, _, some np) => some np
      | (visited', enq, none) =>
        bfsLoop g target maxDepth fuel (rest ++ enq) visited'

/-- Fuel bound: strictly more than the number of states the BFS can ever
dequeue (every reachable term arises from the start term by per-condition
keep/convert/drop choices, so at most `3 ^ n` keys enter the visited set). -/
def bfsFuel (t : Term) : Nat := 3 ^ t.conds.length + 1

/-- `_find_proof_single`. -/
def find_proof_single (g : DiGraph) (start target : Term) (maxDepth : Nat) :
    Option ProofPath :=
  if equivB start target then some []
  else bfsLoop g target maxDepth (bfsFuel start) [(start, [])] [stateKey start]

/-! ### `find_proof` dispatch and its error modes -/

/-- The expression algebra visible to `find_proof`: a term, a sympy
subtraction `Add(a, Mul(-1, b))`, a `Mult` product, or a bare number (what a
fully collapsed sympy expression reduces to). -/
inductive SExpr
  | prob (t : Term)
  | sub (a b : SExpr)
  | mult (args : List SExpr)
  | num (n : Int)

/-- The Python exceptions that `find_proof` can raise.  The
`unsupportedExpression` constructor exists only to express the spec's claim
that a distinct `UnsupportedExpression` error kind is raised; the code
itself only ever raises `TypeError`. -/
inductive PyError
  | typeError (msg : String)
  | unsupportedExpression (msg : String)
deriving DecidableEq, Repr

/-- Discriminator for `TypeError`. -/
def PyError.isTypeError : PyError → Bool
  | .typeError _ => true
  | .unsupportedExpression _ => false

/-- `find_proof` results: a single-term proof path (possibly `[]`), the
`null` outcome, or the `[("ATE-left", …), ("ATE-right", …)]` pair. -/
inductive FPResult
  | found (p : ProofPath)
  | nullResult
  | atePair (l r : ProofPath)
deriving DecidableEq, Repr

/-- `_as_subtraction_pair`: a sympy `Add` with exactly one `+1` and one `-1`
coefficient, i.e. our `sub` constructor; anything else gives `None`. -/
def asSubPair : SExpr → Option (SExpr × SExpr)
  | .sub a b => some (a, b)
  | _ => none

/-- Wrap `find_proof_single`'s optional path as an `FPResult`. -/
def singleResult (g : DiGraph) (a b : Term) (maxDepth : Nat) : FPResult :=
  match find_proof_single g a b maxDepth with
  | some p => .found p
  | none => .nullResult

/-- `find_proof`: single-term search when both ends are terms; ATE
decomposition when both ends are subtractions of terms (raising `TypeError`
on non-term operands); otherwise raise
`TypeError("Unsupported expression type: …")`. -/
def asProb : SExpr → Option Term
  | .prob t => some t
  | _ => none

/-- The `find_proof` dispatch body (`isinstance` checks become `asProb`). -/
def find_proof (g : DiGraph) (start target : SExpr) (maxDepth : Nat) :
    Except PyError FPResult :=
  match asProb start, asProb target with
  | some a, some b => .ok (singleResult g a b maxDepth)
  | _, _ =>
    match asSubPair start, asSubPair target with
    | some (a1, b1), some (a2, b2) =>
      match asProb a1, asProb b1, asProb a2, asProb b2 with
      | some pa1, some pb1, some pa2, some pb2 =>
        match find_proof_single g pa1 pa2 maxDepth with
        | none => .ok .nullResult
        | some pl =>
          match find_proof_single g pb1 pb2 maxDepth with
          | none => .ok .nullResult
          | some pr => .ok (.atePair pl pr)
      | _, _, _, _ =>
        .error (.typeError "ATE terms must be CausalProbability instances")
    | _, _ =>
      .error (.typeError
        "Unsupported expression type: expected CausalProbability or A-B of CausalProbability")

/-! ### Cycle repair (`CausalProofFinder._validate_causal_structure`) -/

/-- Build the directed graph of a parent→children causal structure (both
`_validate_causal_structure` and `CausalExpr._build_graph` construct this
same graph). -/
def buildGraph (cs : List (V × List V)) : DiGraph :=
  ⟨cs.flatMap (fun p => p.1 :: p.2),
   cs.flatMap (fun p => p.2.map (fun c => (p.1, c)))⟩

/-- `nx.is_directed_acyclic_graph` is false iff some edge closes a directed
cycle. -/
def hasCycleB (g : DiGraph) : Bool :=
  g.edges.any (fun e => dirReachB g e.2 e.1)

/-- The edges `(cycle[-1], cycle[0])` removed by the repair loop. -/
def closingEdges (cycles : List (List V)) : List (V × V) :=
  cycles.filterMap fun c =>
    match c, c.getLast? with
    | h :: _, some l => some (l, h)
    | _, _ => none

/-- The edge list of a candidate cycle `[v₀, …, vₖ]`:
`(v₀,v₁), …, (vₖ₋₁,vₖ), (vₖ,v₀)`. -/
def cycleEdgesOf : List V → List (V × V)
  | [] => []
  | v :: rest => (v :: rest).zip (rest ++ [v])

/-- Candidate simple cycles of `g`: nonempty duplicate-free vertex lists all
of whose cyclic edges are edges of `g` (the cycles `nx.simple_cycles`
reports, up to rotation). -/
def isSimpleCycleB (g : DiGraph) (c : List V) : Bool :=
  !c.isEmpty && decide c.Nodup && (cycleEdgesOf c).all (fun e => decide (e ∈ g.edges))

/-- All ways of inserting `x` into a list (helper for enumerating
permutations executably). -/
def insertsOf (x : V) : List V → List (List V)
  | [] => [[x]]
  | y :: ys => (x :: y :: ys) :: (insertsOf x ys).map (y :: ·)

/-- All permutations of a list, by structural recursion. -/
def permsOf : List V → List (List V)
  | [] => [[]]
  | x :: xs => (permsOf xs).flatMap (insertsOf x)

/-- All subsequences of a list, by structural recursion. -/
def subseqsOf : List V → List (List V)
  | [] => [[]]
  | x :: xs => subseqsOf xs ++ (subseqsOf xs).map (x :: ·)

/-- Every simple cycle of `g`, each in every rotation (a finite enumeration
used to state the contract of `nx.simple_cycles` decidably). -/
def simpleCyclesOf (g : DiGraph) : List (List V) :=
  ((subseqsOf g.nodes.dedup).flatMap permsOf).filter (isSimpleCycleB g)

/-- `_validate_causal_structure`, parameterized by the list of simple cycles
`nx.simple_cycles` reports: if the structure's graph is acyclic return it
unchanged; otherwise remove each cycle's closing edge and rebuild the
structure from the repaired graph (keeping nodes with children). -/
def fixedGraph (cs : List (V × List V)) (cycles : List (List V)) : DiGraph :=
  ⟨(buildGraph cs).nodes,
    (buildGraph cs).edges.filter (fun e => decide (e ∉ closingEdges cycles))⟩

def repairStructure (cs : List (V × List V)) (cycles : List (List V)) :
    List (V × List V) :=
  if hasCycleB (buildGraph cs) = false then cs
  else
    (fixedGraph cs cycles).nodes.filterMap fun n =>
      if ((fixedGraph cs cycles).succs n).isEmpty then none
      else some (n, (fixedGraph cs cycles).succs n)

end DoCalc

namespace DoCalc

deriving instance DecidableEq for Except

end DoCalc

namespace DoCalc

/-! ### Supporting lemmas for the claims -/

theorem notMem_moralKeep_of_mem {g : DiGraph} {noi Z : Finset V} {v : V}
    (h : v ∈ Z) : v ∉ moralKeep g noi Z := by
  intro hk
  have h2 := (List.mem_filter.mp hk).2
  rw [decide_eq_true_iff] at h2
  exact h2 h

theorem dedupByRender_subset :
    ∀ (seen : List String) (l : List Term), ∀ t ∈ dedupByRender seen l, t ∈ l := by
  intro seen l
  induction l generalizing seen with
  | nil => simp [dedupByRender]
  | cons x xs ih =>
    intro t ht
    by_cases hx : x.render ∈ seen
    · simp only [dedupByRender, if_pos hx] at ht
      exact List.mem_cons_of_mem x (ih _ t ht)
    · simp only [dedupByRender, if_neg hx] at ht
      rcases List.mem_cons.mp ht with h | h
      · rw [h]
        exact List.mem_cons_self x xs
      · exact List.mem_cons_of_mem x (ih _ t h)

/-! ### Claim theorems: d-separation oracle -/

/-- C9: for every directed graph `G`, vertices `s`, `t` and vertex set `Z`,
`is_d_separated(G, s, t, Z)` equals `is_d_separated(G, t, s, Z)` — the
oracle (raising behaviour included) is symmetric in its endpoints. -/
theorem dsep_symmetric (g : DiGraph) (s t : V) (Z : Finset V) :
    is_d_separated g s t Z = is_d_separated g t s Z := by
  unfold is_d_separated
  by_cases hst : s = t
  · subst hst
    simp
  · have hts : ¬ t = s := fun h => hst h.symm
    rw [if_neg hst, if_neg hts]
    by_cases hmem : s ∉ g.nodes ∨ t ∉ g.nodes
    · rw [if_pos hmem, if_pos (Or.symm hmem)]
    · rw [if_neg hmem, if_neg (fun h => hmem (Or.symm h))]
      by_cases herr : ∃ z ∈ Z, z ∉ g.nodes
      · rw [if_pos herr, if_pos herr]
      · rw [if_neg herr, if_neg herr]
        rw [Finset.Insert.comm s t Z]
        by_cases hkeep : t ∉ moralKeep g (insert t (insert s Z)) Z ∨
            s ∉ moralKeep g (insert t (insert s Z)) Z
        · rw [if_pos (Or.symm hkeep), if_pos hkeep]
        · rw [if_neg (fun h => hkeep (Or.symm h)), if_neg hkeep]
          push_neg at hkeep
          rw [moralConn_symm hkeep.2 hkeep.1]

/-- C8: conditioning on either endpoint yields separation: whenever
`s ≠ t`, `s ∈ Z` or `t ∈ Z`, and the conditioning set consists of vertices
of the graph, the oracle answers "separated". -/
theorem dsep_endpoint_conditioned (g : DiGraph) (s t : V) (Z : Finset V)
    (hst : s ≠ t) (hz : s ∈ Z ∨ t ∈ Z) (hZ : ∀ z ∈ Z, z ∈ g.nodes) :
    is_d_separated g s t Z = .ok true := by
  unfold is_d_separated
  rw [if_neg hst]
  by_cases hmem : s ∉ g.nodes ∨ t ∉ g.nodes
  · rw [if_pos hmem]
  · rw [if_neg hmem]
    rw [if_neg (by push_neg; exact hZ)]
    have hkeep : s ∉ moralKeep g (insert s (insert t Z)) Z ∨
        t ∉ moralKeep g (insert s (insert t Z)) Z := by
      rcases hz with h | h
      · exact Or.inl (notMem_moralKeep_of_mem h)
      · exact Or.inr (notMem_moralKeep_of_mem h)
    rw [if_pos hkeep]

/-- Witness for `dsep_endpoint_conditioned` at the chain `X → Y`
conditioned on its endpoint `Y`. -/
theorem dsep_endpoint_conditioned_witness :
    ("X" : V) ≠ "Y" ∧ (("X" : V) ∈ ({"Y"} : Finset V) ∨ ("Y" : V) ∈ ({"Y"} : Finset V)) ∧
      (∀ z ∈ ({"Y"} : Finset V), z ∈ (DiGraph.mk ["X", "Y"] [("X", "Y")]).nodes) ∧
      is_d_separated ⟨["X", "Y"], [("X", "Y")]⟩ "X" "Y" {"Y"} = .ok true :=
  ⟨by decide, by decide, by decide,
    dsep_endpoint_conditioned ⟨["X", "Y"], [("X", "Y")]⟩ "X" "Y" {"Y"}
      (by decide) (by decide) (by decide)⟩

end DoCalc

namespace DoCalc

/-! ### The condition ordering, spelled out -/

/-- The three sort classes of `_condition_sort_key`: interventions, then
equalities, then bare observations. -/
def condClass : Cond → Nat
  | .doC _ _ => 0
  | .eqC _ _ => 1
  | .obs _ => 2

/-- The value component of `_condition_sort_key` (empty when absent). -/
def condValStr : Cond → String
  | .doC _ none => ""
  | .doC _ (some u) => u.render
  | .eqC _ u => u.render
  | .obs _ => ""

theorem condKey_eq (c : Cond) :
    condKey c = (condClass c, c.var, condValStr c) := by
  cases c with
  | doC v val => cases val <;> rfl
  | eqC v u => rfl
  | obs v => rfl

/-- The sort comparison, unfolded to the class/variable/value lexicographic
description (string comparisons by code point, as in Python). -/
theorem condLE_iff (a b : Cond) :
    condLE a b ↔
      condClass a < condClass b ∨
        (condClass a = condClass b ∧
          (strLtB a.var b.var = true ∨
            (a.var = b.var ∧ strLeB (condValStr a) (condValStr b) = true))) := by
  rw [condLE, condKey_eq, condKey_eq]
  unfold keyLEb
  simp only
  by_cases h1 : condClass a < condClass b
  · simp [h1]
  · by_cases h2 : condClass b < condClass a
    · have hne : condClass a ≠ condClass b := by omega
      simp [h1, h2, hne]
    · have heq : condClass a = condClass b := by omega
      simp only [if_neg h1, if_neg h2, heq]
      by_cases hv : strLtB a.var b.var = true
      · simp [hv, heq]
      · by_cases hv' : strLtB b.var a.var = true
        · have hne : a.var ≠ b.var := by
            intro hh
            rw [hh, strLtB_irrefl_str] at hv'
            exact absurd hv' (by simp)
          simp [hv, hv', hne, heq, lt_irrefl]
        · have hveq : a.var = b.var :=
            strLtB_eq_of_not (Bool.eq_false_iff.mpr hv) (Bool.eq_false_iff.mpr hv')
          simp [hv, hv', hveq, lt_irrefl, strLtB_irrefl_str]

/-! ### Claim theorems: term construction and ordering -/

/-- Counterexample to C5: the canonical order does not sort the observation
class purely by variable name — the equality observation `Z=1` (class 1)
precedes the bare observation `A` (class 2) even though `A < Z`. -/
theorem condition_order_counterexample :
    (mkTerm (.var "Y") [.obs "A", .eqC "Z" (.int 1)]).conds
        = [.eqC "Z" (.int 1), .obs "A"] ∧
      (mkTerm (.var "Y") [.obs "A", .eqC "Z" (.int 1)]).render = "P(Y | Z=1, A)" ∧
      (mkTerm (.var "Y") [.obs "A", .eqC "Z" (.int 1)]).conds
        ≠ [.obs "A", .eqC "Z" (.int 1)] := by
  decide

/-- C5 (amended): the canonical ordering of a constructed term's conditions
is: interventions first, then value-carrying observations (equalities), then
bare observations; within each of these three classes, lexicographically by
variable name and then by rendered value.  The stored tuple is a permutation
of the input conditions in that order. -/
theorem condition_order_canonical (y : Outcome) (cs : List Cond) :
    (mkTerm y cs).conds.Perm cs ∧
      (mkTerm y cs).conds.Sorted (fun a b =>
        condClass a < condClass b ∨
          (condClass a = condClass b ∧
            (strLtB a.var b.var = true ∨
              (a.var = b.var ∧ strLeB (condValStr a) (condValStr b) = true)))) := by
  constructor
  · exact List.perm_insertionSort condLE cs
  · exact List.Pairwise.imp (fun hab => (condLE_iff _ _).mp hab)
      (List.sorted_insertionSort condLE cs)

/-- Counterexample to C3: construction does not coalesce duplicate
conditions — `P(Y | X, X)` differs from `P(Y | X)`, and
`P(Y | X=0, X=1)` keeps both conflicting assignments rather than only the
first. -/
theorem construct_no_coalesce_counterexample :
    mkTerm (.var "Y") [.obs "X", .obs "X"] ≠ mkTerm (.var "Y") [.obs "X"] ∧
      (mkTerm (.var "Y") [.eqC "X" (.int 0), .eqC "X" (.int 1)]).conds
        = [.eqC "X" (.int 0), .eqC "X" (.int 1)] ∧
      mkTerm (.var "Y") [.eqC "X" (.int 0), .eqC "X" (.int 1)]
        ≠ mkTerm (.var "Y") [.eqC "X" (.int 0)] := by
  decide

/-- C3 (amended): constructing `P(Y | C)` keeps the conditions as a
multiset — the stored tuple is a permutation of `C` of the same length, so
duplicates and same-variable conflicting values are all retained (the
set-like treatment happens only in the proof search's structural
equivalence, not at construction). -/
theorem construct_keeps_multiset (y : Outcome) (cs : List Cond) :
    (mkTerm y cs).conds.Perm cs ∧ (mkTerm y cs).conds.length = cs.length :=
  ⟨List.perm_insertionSort condLE cs,
    (List.perm_insertionSort condLE cs).length_eq⟩

/-! ### Claim theorems: Rule 2 -/

/-- Counterexample to C1: on the graph `Z → Y` with start term
`P(Y | do(Z=1))`, Rule 2 fires and emits `P(Y | Z)` — the bare observation,
with the value `1` discarded, not `P(Y | Z=1)`. -/
theorem rule2_value_dropped_counterexample :
    apply_rule_2_all ⟨["Z", "Y"], [("Z", "Y")]⟩
        (mkTerm (.var "Y") [.doC "Z" (some (.int 1))])
      = [mkTerm (.var "Y") [.obs "Z"]] ∧
      mkTerm (.var "Y") [.obs "Z"] ≠ mkTerm (.var "Y") [.eqC "Z" (.int 1)] := by
  decide

/-- C1 (amended): every Rule 2 successor replaces the intervention at one
`do` position by the bare observation of its variable, discarding any
carried value; all other conditions are unchanged. -/
theorem rule2_emits_bare_observation (g : DiGraph) (t : Term) :
    ∀ c ∈ apply_rule_2_all g t, ∃ idx ∈ doIdxs t.conds,
      c = mkTerm t.outcome (t.conds.set idx (.obs (condVarAt t.conds idx))) := by
  intro c hc
  have hc' := dedupByRender_subset _ _ c hc
  obtain ⟨idx, hidx, hmatch⟩ := List.mem_filterMap.mp hc'
  refine ⟨idx, hidx, ?_⟩
  unfold rule2Cand at hmatch
  split at hmatch
  · exact (Option.some.inj hmatch).symm
  · exact absurd hmatch (by simp)

/-- Witness for `rule2_emits_bare_observation` at the Rule 2 firing of the
counterexample graph. -/
theorem rule2_emits_bare_observation_witness :
    mkTerm (.var "Y") [.obs "Z"] ∈
        apply_rule_2_all ⟨["Z", "Y"], [("Z", "Y")]⟩
          (mkTerm (.var "Y") [.doC "Z" (some (.int 1))]) ∧
      ∃ idx ∈ doIdxs (mkTerm (.var "Y") [.doC "Z" (some (.int 1))]).conds,
        mkTerm (.var "Y") [.obs "Z"] =
          mkTerm (mkTerm (.var "Y") [.doC "Z" (some (.int 1))]).outcome
            ((mkTerm (.var "Y") [.doC "Z" (some (.int 1))]).conds.set idx
              (.obs (condVarAt (mkTerm (.var "Y") [.doC "Z" (some (.int 1))]).conds idx))) :=
  ⟨by decide,
    rule2_emits_bare_observation ⟨["Z", "Y"], [("Z", "Y")]⟩
      (mkTerm (.var "Y") [.doC "Z" (some (.int 1))])
      (mkTerm (.var "Y") [.obs "Z"]) (by decide)⟩

end DoCalc

namespace DoCalc

/-! ### Claim theorems: `find_proof` error modes -/

/-- Counterexample to C2: the unsupported-shape failure is a `TypeError`
(message `Unsupported expression type: …`), not a distinct
`UnsupportedExpression` error kind — the code defines no such exception
class. -/
theorem find_proof_error_kind_counterexample :
    find_proof ⟨[], []⟩ (.mult []) (.prob (mkTerm (.var "Y") [])) 0
        = .error (.typeError
          "Unsupported expression type: expected CausalProbability or A-B of CausalProbability") ∧
      (PyError.typeError
          "Unsupported expression type: expected CausalProbability or A-B of CausalProbability").isTypeError
        = true :=
  ⟨rfl, rfl⟩

/-- C2 (amended): every failure of `find_proof` is a `TypeError`; when the
two ends are not both terms and not both subtractions the message is
`Unsupported expression type: …`, and when both ends are subtractions with
some operand not a term the message is
`ATE terms must be CausalProbability instances`. -/
theorem find_proof_error_modes (g : DiGraph) (start target : SExpr) (d : Nat) :
    (∀ e, find_proof g start target d = .error e → e.isTypeError = true) ∧
      ((asProb start = none ∨ asProb target = none) →
        (asSubPair start = none ∨ asSubPair target = none) →
        find_proof g start target d = .error (.typeError
          "Unsupported expression type: expected CausalProbability or A-B of CausalProbability")) ∧
      (∀ a1 b1 a2 b2, start = .sub a1 b1 → target = .sub a2 b2 →
        (asProb a1 = none ∨ asProb b1 = none ∨ asProb a2 = none ∨ asProb b2 = none) →
        find_proof g start target d =
          .error (.typeError "ATE terms must be CausalProbability instances")) := by
  refine ⟨?_, ?_, ?_⟩
  · intro e he
    unfold find_proof at he
    repeat' split at he
    all_goals
      first
      | (injection he with he'
         rw [← he']
         rfl)
      | exact absurd he (by simp)
  · intro hnp hns
    unfold find_proof
    rcases hs : asProb start with _ | a <;> rcases ht : asProb target with _ | b
    · rcases hss : asSubPair start with _ | p1
      · rcases hts : asSubPair target with _ | p2
        · rfl
        · rfl
      · rcases hts : asSubPair target with _ | p2
        · rfl
        · rcases hns with h | h
          · rw [hss] at h
            exact absurd h (by simp)
          · rw [hts] at h
            exact absurd h (by simp)
    · rcases hss : asSubPair start with _ | p1 <;> rcases hts : asSubPair target with _ | p2
      · rfl
      · rfl
      · rfl
      · rcases hns with h | h
        · rw [hss] at h
          exact absurd h (by simp)
        · rw [hts] at h
          exact absurd h (by simp)
    · rcases hss : asSubPair start with _ | p1 <;> rcases hts : asSubPair target with _ | p2
      · rfl
      · rfl
      · rfl
      · rcases hns with h | h
        · rw [hss] at h
          exact absurd h (by simp)
        · rw [hts] at h
          exact absurd h (by simp)
    · rcases hnp with h | h
      · rw [hs] at h
        exact absurd h (by simp)
      · rw [ht] at h
        exact absurd h (by simp)
  · intro a1 b1 a2 b2 hstart htarget hsome
    subst hstart
    subst htarget
    unfold find_proof
    have hps : asProb (SExpr.sub a1 b1) = none := rfl
    have hpt : asProb (SExpr.sub a2 b2) = none := rfl
    have hss : asSubPair (SExpr.sub a1 b1) = some (a1, b1) := rfl
    have hts : asSubPair (SExpr.sub a2 b2) = some (a2, b2) := rfl
    simp only [hps, hpt, hss, hts]
    rcases h1 : asProb a1 with _ | pa1 <;> rcases h2 : asProb b1 with _ | pb1 <;>
      rcases h3 : asProb a2 with _ | pa2 <;> rcases h4 : asProb b2 with _ | pb2 <;>
      (try simp only [h1, h2, h3, h4]) <;>
      first
      | rfl
      | (rcases hsome with h | h | h | h <;> simp_all)

/-- Witness for `find_proof_error_modes` on a numeral start expression. -/
theorem find_proof_error_modes_witness :
    find_proof ⟨[], []⟩ (.num 0) (.prob (mkTerm (.var "Y") [])) 0
      = .error (.typeError
        "Unsupported expression type: expected CausalProbability or A-B of CausalProbability") :=
  (find_proof_error_modes ⟨[], []⟩ (.num 0) (.prob (mkTerm (.var "Y") [])) 0).2.1
    (Or.inl rfl) (Or.inl rfl)

end DoCalc

namespace DoCalc

/-! ### Claim theorems: the enumerators never introduce anything (C10) -/

/-- A condition is derived from the input conditions when it occurs there
verbatim, or is the bare observation left by Rule 2's conversion of an
intervention that occurs there. -/
def derivedFrom (orig : List Cond) (c : Cond) : Prop :=
  c ∈ orig ∨ ∃ v val, Cond.doC v val ∈ orig ∧ c = .obs v

theorem derivedFrom_var {orig : List Cond} {c : Cond} (h : derivedFrom orig c) :
    c.var ∈ orig.map Cond.var := by
  rcases h with h | ⟨v, val, hmem, hc⟩
  · exact List.mem_map.mpr ⟨c, h, rfl⟩
  · subst hc
    exact List.mem_map.mpr ⟨.doC v val, hmem, rfl⟩

theorem mem_sortConds {cs : List Cond} {c : Cond} :
    c ∈ sortConds cs ↔ c ∈ cs :=
  (List.perm_insertionSort condLE cs).mem_iff

/-- Shape of every Rule 1 candidate: a drop of all observations of one
observed variable. -/
theorem rule1_shape (g : DiGraph) (t : Term) :
    ∀ c ∈ apply_rule_1_all g t,
      ∃ w ∈ obsVarsOf t.conds, c = mkTerm t.outcome (dropObsVar t.conds w) := by
  intro c hc
  unfold apply_rule_1_all at hc
  split at hc
  · exact absurd hc (by simp)
  · have hc' := dedupByRender_subset _ _ c hc
    obtain ⟨w, hw, hmatch⟩ := List.mem_filterMap.mp hc'
    refine ⟨w, hw, ?_⟩
    unfold rule1Cand at hmatch
    split at hmatch
    · exact (Option.some.inj hmatch).symm
    · exact absurd hmatch (by simp)

/-- Shape of every Rule 3 candidate: deletion of the intervention at one
`do` position. -/
theorem rule3_shape (g : DiGraph) (t : Term) (outs : List Term)
    (h : apply_rule_3_all g t = .ok outs) :
    ∀ c ∈ outs, ∃ i ∈ doIdxs t.conds, c = mkTerm t.outcome (t.conds.eraseIdx i) := by
  intro c hc
  unfold apply_rule_3_all at h
  split at h
  · exact absurd h (by simp)
  · rename_i collected hcol
    have houts : outs = dedupByRender [] collected := (Except.ok.inj h).symm
    subst houts
    have hc' := dedupByRender_subset _ _ c hc
    clear hc h
    have main : ∀ (idxs : List Nat) (acc : List Term),
        rule3Collect g t idxs = .ok acc → ∀ x ∈ acc,
          ∃ i ∈ idxs, rule3At g t i = .ok (some x) := by
      intro idxs
      induction idxs with
      | nil =>
        intro acc hacc x hx
        simp only [rule3Collect] at hacc
        rw [← Except.ok.inj hacc] at hx
        exact absurd hx (by simp)
      | cons i rest ih =>
        intro acc hacc x hx
        simp only [rule3Collect] at hacc
        split at hacc
        · exact absurd hacc (by simp)
        · obtain ⟨j, hj, hx'⟩ := ih acc hacc x hx
          exact ⟨j, List.mem_cons_of_mem i hj, hx'⟩
        · rename_i c' hc'
          split at hacc
          · exact absurd hacc (by simp)
          · rename_i others hothers
            rw [← Except.ok.inj hacc] at hx
            rcases List.mem_cons.mp hx with hxx | hxx
            · exact ⟨i, List.mem_cons_self i rest, by rw [← hxx] at hc'; exact hc'⟩
            · obtain ⟨j, hj, hx'⟩ := ih others hothers x hxx
              exact ⟨j, List.mem_cons_of_mem i hj, hx'⟩
    obtain ⟨i, hi, hat⟩ := main _ _ hcol c hc'
    refine ⟨i, hi, ?_⟩
    unfold rule3At at hat
    split at hat
    · exact absurd hat (by simp)
    · split at hat
      · exact (Option.some.inj (Except.ok.inj hat)).symm
      · exact absurd hat (by simp)

/-- Every `do` position carries an intervention condition on the variable
`condVarAt` reports. -/
theorem doIdxs_mem_doC {cs : List Cond} {i : Nat} (h : i ∈ doIdxs cs) :
    ∃ val, Cond.doC (condVarAt cs i) val ∈ cs := by
  unfold doIdxs at h
  obtain ⟨p, hp, hmatch⟩ := List.mem_filterMap.mp h
  rcases p with ⟨j, c⟩
  rcases c with ⟨v, val⟩ | ⟨v, u⟩ | v
  · simp only at hmatch
    injection hmatch with hj
    rw [← hj]
    obtain ⟨hlt, hc⟩ := List.mem_enum hp
    have hgd : cs.getD j (.obs "") = .doC v val := by
      rw [List.getD_eq_getElem?_getD]
      have hsome : cs[j]? = some (Cond.doC v val) := by
        rw [List.getElem?_eq_some]
        exact ⟨hlt, hc.symm⟩
      rw [hsome]
      rfl
    have hva : condVarAt cs j = v := by
      unfold condVarAt
      rw [hgd]
      rfl
    refine ⟨val, ?_⟩
    rw [hva]
    have hmem : cs[j] ∈ cs := List.getElem_mem hlt
    rwa [← hc] at hmem
  · exact absurd hmatch (by simp)
  · exact absurd hmatch (by simp)

/-- C10: for every term and DAG, no enumerator introduces a condition or a
variable: every successor keeps the outcome, and each of its conditions is
derived from a condition of the input (so its variable already occurs
there). -/
theorem enumerators_introduce_nothing (g : DiGraph) (t : Term) :
    (∀ c ∈ apply_rule_1_all g t, c.outcome = t.outcome ∧
      ∀ d ∈ c.conds, derivedFrom t.conds d ∧ d.var ∈ t.conds.map Cond.var) ∧
      (∀ c ∈ apply_rule_2_all g t, c.outcome = t.outcome ∧
        ∀ d ∈ c.conds, derivedFrom t.conds d ∧ d.var ∈ t.conds.map Cond.var) ∧
      (∀ outs, apply_rule_3_all g t = .ok outs → ∀ c ∈ outs, c.outcome = t.outcome ∧
        ∀ d ∈ c.conds, derivedFrom t.conds d ∧ d.var ∈ t.conds.map Cond.var) := by
  refine ⟨?_, ?_, ?_⟩
  · intro c hc
    obtain ⟨w, _, hcq⟩ := rule1_shape g t c hc
    subst hcq
    refine ⟨rfl, ?_⟩
    intro d hd
    have hd' : d ∈ dropObsVar t.conds w := mem_sortConds.mp hd
    have hdm : d ∈ t.conds := (List.mem_filter.mp hd').1
    exact ⟨Or.inl hdm, derivedFrom_var (Or.inl hdm)⟩
  · intro c hc
    obtain ⟨idx, hidx, hcq⟩ := rule2_emits_bare_observation g t c hc
    subst hcq
    refine ⟨rfl, ?_⟩
    intro d hd
    have hd' : d ∈ t.conds.set idx (.obs (condVarAt t.conds idx)) := mem_sortConds.mp hd
    rcases List.mem_or_eq_of_mem_set hd' with hdm | hdm
    · exact ⟨Or.inl hdm, derivedFrom_var (Or.inl hdm)⟩
    · obtain ⟨val, hval⟩ := doIdxs_mem_doC hidx
      have hder : derivedFrom t.conds d :=
        Or.inr ⟨condVarAt t.conds idx, val, hval, hdm⟩
      exact ⟨hder, derivedFrom_var hder⟩
  · intro outs houts c hc
    obtain ⟨i, _, hcq⟩ := rule3_shape g t outs houts c hc
    subst hcq
    refine ⟨rfl, ?_⟩
    intro d hd
    have hd' : d ∈ t.conds.eraseIdx i := mem_sortConds.mp hd
    have hdm : d ∈ t.conds := List.mem_of_mem_eraseIdx hd'
    exact ⟨Or.inl hdm, derivedFrom_var (Or.inl hdm)⟩

/-- Witness for `enumerators_introduce_nothing`: the Rule 1 drop of `W` on
the chain `X → Y` with `W` isolated. -/
theorem enumerators_introduce_nothing_witness :
    mkTerm (.var "Y") [.doC "X" none] ∈
        apply_rule_1_all ⟨["X", "Y", "W"], [("X", "Y")]⟩
          (mkTerm (.var "Y") [.doC "X" none, .obs "W"]) ∧
      (mkTerm (.var "Y") [.doC "X" none]).outcome
          = (mkTerm (.var "Y") [.doC "X" none, .obs "W"]).outcome ∧
      derivedFrom (mkTerm (.var "Y") [.doC "X" none, .obs "W"]).conds (.doC "X" none) :=
  ⟨by decide,
    ((enumerators_introduce_nothing ⟨["X", "Y", "W"], [("X", "Y")]⟩
        (mkTerm (.var "Y") [.doC "X" none, .obs "W"])).1
      (mkTerm (.var "Y") [.doC "X" none]) (by decide)).1,
    (((enumerators_introduce_nothing ⟨["X", "Y", "W"], [("X", "Y")]⟩
        (mkTerm (.var "Y") [.doC "X" none, .obs "W"])).1
      (mkTerm (.var "Y") [.doC "X" none]) (by decide)).2
      (Cond.doC "X" none) (by decide)).1⟩

end DoCalc

namespace DoCalc

/-! ### Claim theorems: equality outcomes make the oracle vacuous (C4) -/

/-- An endpoint absent from the graph makes the oracle answer "separated"
before any graph work happens. -/
theorem dsep_vacuous {g : DiGraph} {x y : V} {Z : Finset V}
    (hx : x ∉ g.nodes) (hxy : x ≠ y) : is_d_separated g x y Z = .ok true := by
  unfold is_d_separated
  rw [if_neg hxy, if_pos (Or.inl hx)]

/-- Whether a string contains an opening parenthesis; variable names never
do, while the rendering of an equality outcome always does. -/
def hasParen (s : String) : Bool := s.data.any (fun ch => ch == '(')

theorem eq_outcome_hasParen (v : V) (u : Value) :
    hasParen (Outcome.strR (.eq v u)) = true := by
  unfold Outcome.strR hasParen
  have h : ("Eq(".data.any (fun ch => ch == '(')) = true := by decide
  simp [String.data_append, List.any_append, h]

theorem eq_outcome_ne_sane {v : V} {u : Value} {w : String}
    (hw : hasParen w = false) : Outcome.strR (.eq v u) ≠ w := by
  intro h
  have hp := eq_outcome_hasParen v u
  rw [h, hw] at hp
  exact absurd hp (by simp)

theorem barGraph_nodes (g : DiGraph) (xs : List V) :
    (barGraph g xs).nodes = g.nodes := rfl

theorem underline_nodes (g : DiGraph) (z : V) :
    (underline g z).nodes = g.nodes := rfl

theorem filterMap_eq_map_of_some {α β : Type} {l : List α} {f : α → Option β}
    {m : α → β} (h : ∀ x ∈ l, f x = some (m x)) : l.filterMap f = l.map m := by
  induction l with
  | nil => rfl
  | cons a as ih =>
    rw [List.filterMap_cons, h a (List.mem_cons_self a as), List.map_cons,
      ih (fun x hx => h x (List.mem_cons_of_mem a hx))]

theorem condVarAt_mem_doVars {cs : List Cond} {i : Nat} (h : i ∈ doIdxs cs) :
    condVarAt cs i ∈ doVarsOf cs := by
  obtain ⟨val, hval⟩ := doIdxs_mem_doC h
  unfold doVarsOf
  exact List.mem_filterMap.mpr ⟨.doC (condVarAt cs i) val, hval, rfl⟩

theorem ancLoop_ok {gbar : DiGraph} {z : V} (hz : z ∈ gbar.nodes) :
    ∀ {ws : List V}, (∀ w ∈ ws, w ∈ gbar.nodes) → ∃ b, ancLoop gbar z ws = .ok b := by
  intro ws
  induction ws with
  | nil => exact fun _ => ⟨false, rfl⟩
  | cons w ws ih =>
    intro h
    have hw : w ∈ gbar.nodes := h w (List.mem_cons_self w ws)
    unfold ancLoop
    rw [if_neg (by push_neg; exact ⟨hz, hw⟩)]
    by_cases hr : dirReachB gbar z w = true
    · exact ⟨true, by rw [if_pos hr]⟩
    · obtain ⟨b, hb⟩ := ih (fun x hx => h x (List.mem_cons_of_mem w hx))
      exact ⟨b, by rw [if_neg hr]; exact hb⟩

theorem rule3Collect_all_some {g : DiGraph} {t : Term} {m : Nat → Term} :
    ∀ {idxs : List Nat}, (∀ i ∈ idxs, rule3At g t i = .ok (some (m i))) →
      rule3Collect g t idxs = .ok (idxs.map m) := by
  intro idxs
  induction idxs with
  | nil => exact fun _ => rfl
  | cons i rest ih =>
    intro h
    have hi := h i (List.mem_cons_self i rest)
    have hrest := ih (fun j hj => h j (List.mem_cons_of_mem i hj))
    unfold rule3Collect
    rw [hi, hrest]
    rfl

/-- Counterexample to C4: with an equality outcome, the claim says Rule 3
fires for every intervention regardless of the graph; but on the empty
graph the ancestor scan's `nx.has_path` raises an uncaught `NodeNotFound`
for the missing vertex, and the Rule 3 enumerator raises instead of
emitting anything. -/
theorem eq_outcome_rule3_raises_counterexample :
    apply_rule_3_all ⟨[], []⟩ (mkTerm (.eq "Y" (.int 1)) [.doC "X" none, .obs "W"])
      = .error () := by
  decide

/-- C4 (amended): for a term whose outcome is an equality, the outcome is
passed to the oracle as its string rendering; when that string is not a
vertex (and the condition variables are parenthesis-free names), every
d-separation test is vacuously true, so Rule 1 emits the drop-successor for
every observed variable, Rule 2 converts every intervention, and — provided
the intervention and observed variables are vertices of the graph, or there
are no observed conditions — Rule 3 removes every intervention; successor
lists are deduplicated by rendered string. -/
theorem eq_outcome_enumerators_vacuous (g : DiGraph) (t : Term) (yv : V) (yu : Value)
    (ho : t.outcome = .eq yv yu)
    (hnode : t.outcome.strR ∉ g.nodes)
    (hsane : ∀ w ∈ obsVarsOf t.conds ++ doVarsOf t.conds, hasParen w = false)
    (hpres : obsVarsOf t.conds = [] ∨
      ((∀ z ∈ doVarsOf t.conds, z ∈ g.nodes) ∧ ∀ w ∈ obsVarsOf t.conds, w ∈ g.nodes)) :
    apply_rule_1_all g t
        = dedupByRender [] ((obsVarsOf t.conds).map
            (fun w => mkTerm t.outcome (dropObsVar t.conds w))) ∧
      apply_rule_2_all g t
        = dedupByRender [] ((doIdxs t.conds).map
            (fun idx => mkTerm t.outcome (t.conds.set idx (.obs (condVarAt t.conds idx))))) ∧
      apply_rule_3_all g t
        = .ok (dedupByRender [] ((doIdxs t.conds).map
            (fun idx => mkTerm t.outcome (t.conds.eraseIdx idx)))) := by
  have hneq : ∀ w ∈ obsVarsOf t.conds ++ doVarsOf t.conds, t.outcome.strR ≠ w := by
    intro w hw
    rw [ho]
    exact eq_outcome_ne_sane (hsane w hw)
  refine ⟨?_, ?_, ?_⟩
  · unfold apply_rule_1_all
    have hmap : (obsVarsOf t.conds).filterMap (rule1Cand g t)
        = (obsVarsOf t.conds).map (fun w => mkTerm t.outcome (dropObsVar t.conds w)) := by
      refine filterMap_eq_map_of_some ?_
      intro w hw
      unfold rule1Cand customDSep
      rw [dsep_vacuous (by rw [barGraph_nodes]; exact hnode)
        (hneq w (List.mem_append_left _ hw))]
    by_cases hempty : t.conds.isEmpty
    · have hnil : t.conds = [] := by
        rwa [List.isEmpty_iff] at hempty
      rw [if_pos hempty, hnil]
      rfl
    · rw [if_neg hempty, hmap]
  · unfold apply_rule_2_all
    congr 1
    refine filterMap_eq_map_of_some ?_
    intro idx hidx
    unfold rule2Cand customDSep
    rw [dsep_vacuous (by rw [underline_nodes, barGraph_nodes]; exact hnode)
      (hneq _ (List.mem_append_right _ (condVarAt_mem_doVars hidx)))]
  · unfold apply_rule_3_all
    have hcol : rule3Collect g t (doIdxs t.conds)
        = .ok ((doIdxs t.conds).map (fun idx => mkTerm t.outcome (t.conds.eraseIdx idx))) := by
      refine rule3Collect_all_some ?_
      intro i hi
      have hz : condVarAt t.conds i ∈ doVarsOf t.conds := condVarAt_mem_doVars hi
      have hanc : ∃ b, ancLoop (barGraph g (otherDoVars t.conds i)) (condVarAt t.conds i)
          (obsVarsOf t.conds) = .ok b := by
        rcases hpres with hobs | ⟨hdo, hob⟩
        · rw [hobs]
          exact ⟨false, rfl⟩
        · exact ancLoop_ok (by rw [barGraph_nodes]; exact hdo _ hz)
            (fun w hw => by rw [barGraph_nodes]; exact hob w hw)
      obtain ⟨b, hb⟩ := hanc
      unfold rule3At
      rw [hb]
      simp only []
      have hng : t.outcome.strR ∉
          (if b then barGraph g (otherDoVars t.conds i)
           else barGraph (barGraph g (otherDoVars t.conds i)) [condVarAt t.conds i]).nodes := by
        rcases b with _ | _
        · rw [if_neg (by simp), barGraph_nodes, barGraph_nodes]
          exact hnode
        · rw [if_pos rfl, barGraph_nodes]
          exact hnode
      unfold customDSep
      rw [dsep_vacuous hng (hneq _ (List.mem_append_right _ hz))]
    rw [hcol]

/-- Witness for `eq_outcomes_enumerators_vacuous` on a two-vertex graph. -/
theorem eq_outcome_enumerators_vacuous_witness :
    apply_rule_3_all ⟨["X", "W"], []⟩
        (mkTerm (.eq "Y" (.int 1)) [.doC "X" none, .obs "W"])
      = .ok (dedupByRender []
          ((doIdxs (mkTerm (.eq "Y" (.int 1)) [.doC "X" none, .obs "W"]).conds).map
            (fun idx => mkTerm (mkTerm (.eq "Y" (.int 1)) [.doC "X" none, .obs "W"]).outcome
              ((mkTerm (.eq "Y" (.int 1)) [.doC "X" none, .obs "W"]).conds.eraseIdx idx)))) :=
  (eq_outcome_enumerators_vacuous ⟨["X", "W"], []⟩
      (mkTerm (.eq "Y" (.int 1)) [.doC "X" none, .obs "W"]) "Y" (.int 1)
      (by decide) (by decide) (by decide) (by decide)).2.2

end DoCalc

namespace DoCalc

/-! ### Walks, cycles, and the cycle-repair argument (C6) -/

theorem chain'_zip_pairs {R : V → V → Prop} :
    ∀ {l : List V}, List.Chain' R l → ∀ p ∈ l.zip l.tail, R p.1 p.2 := by
  intro l
  induction l with
  | nil => intro _ p hp; exact absurd hp (by simp)
  | cons a t ih =>
    intro h p hp
    cases t with
    | nil => exact absurd hp (by simp)
    | cons b t' =>
      rw [List.chain'_cons] at h
      simp only [List.tail_cons, List.zip_cons_cons] at hp
      rcases List.mem_cons.mp hp with hpq | hpq
      · rw [hpq]
        exact h.1
      · exact ih h.2 p (by simpa using hpq)

theorem zip_append_sub {a d c : List V} :
    ∀ p ∈ a.zip c, p ∈ (a ++ d).zip c := by
  induction a generalizing c with
  | nil => intro p hp; exact absurd hp (by simp)
  | cons x a' ih =>
    intro p hp
    cases c with
    | nil => exact absurd hp (by simp)
    | cons y c' =>
      simp only [List.zip_cons_cons, List.cons_append] at hp ⊢
      rcases List.mem_cons.mp hp with h | h
      · rw [h]
        exact List.mem_cons_self _ _
      · exact List.mem_cons_of_mem _ (ih p h)

theorem exists_dup_decomp :
    ∀ {l : List V}, ¬ l.Nodup → ∃ p x m s, l = p ++ x :: m ++ x :: s := by
  intro l
  induction l with
  | nil => intro h; exact absurd List.nodup_nil h
  | cons y t ih =>
    intro h
    by_cases hy : y ∈ t
    · obtain ⟨s₁, s₂, hts⟩ := List.append_of_mem hy
      exact ⟨[], y, s₁, s₂, by rw [hts]; rfl⟩
    · have hnt : ¬ t.Nodup := by
        intro hnd
        exact h (List.nodup_cons.mpr ⟨hy, hnd⟩)
      obtain ⟨p, x, m, s, hts⟩ := ih hnt
      exact ⟨y :: p, x, m, s, by rw [hts]; rfl⟩

theorem mem_fst_zip_of_le :
    ∀ (l m : List V), l.length ≤ m.length → ∀ v ∈ l, ∃ e ∈ l.zip m, e.1 = v := by
  intro l
  induction l with
  | nil => intro m _ v hv; exact absurd hv (by simp)
  | cons x l' ih =>
    intro m hlen v hv
    cases m with
    | nil => simp at hlen
    | cons y m' =>
      simp only [List.zip_cons_cons]
      rcases List.mem_cons.mp hv with h | h
      · exact ⟨(x, y), List.mem_cons_self _ _, h.symm⟩
      · obtain ⟨e, he, hev⟩ := ih m' (by simpa using hlen) v h
        exact ⟨e, List.mem_cons_of_mem _ he, hev⟩

theorem mem_fst_cycleEdges {c : List V} {v : V} (hv : v ∈ c) :
    ∃ e ∈ cycleEdgesOf c, e.1 = v := by
  cases c with
  | nil => exact absurd hv (by simp)
  | cons v₀ rest =>
    unfold cycleEdgesOf
    exact mem_fst_zip_of_le (v₀ :: rest) (rest ++ [v₀]) (by simp) v hv

end DoCalc

namespace DoCalc

theorem rtg_to_chain {E : List (V × V)} {x y : V}
    (h : Relation.ReflTransGen (fun a b => (a, b) ∈ E) x y) :
    ∃ l, List.Chain' (fun a b => (a, b) ∈ E) (x :: l) ∧
      (x :: l).getLast? = some y := by
  induction h with
  | refl => exact ⟨[], List.chain'_singleton x, rfl⟩
  | tail hab hbc ih =>
    rename_i b c
    obtain ⟨l, hchain, hlast⟩ := ih
    refine ⟨l ++ [c], ?_, ?_⟩
    · have hsplit : x :: (l ++ [c]) = (x :: l) ++ [c] := rfl
      rw [hsplit, List.chain'_append]
      refine ⟨hchain, List.chain'_singleton c, ?_⟩
      intro p hp q hq
      have hp' : b = p := by
        rw [hlast] at hp
        simpa using hp
      have hq' : c = q := by simpa using hq
      rw [← hp', ← hq']
      exact hbc
    · have hsplit : x :: (l ++ [c]) = (x :: l) ++ [c] := rfl
      rw [hsplit]
      exact List.getLast?_concat _

theorem exists_cycle_of_closed_walk {E : List (V × V)} :
    ∀ (n : Nat) (w : List V), w.length ≤ n → 2 ≤ w.length →
      List.Chain' (fun a b => (a, b) ∈ E) w → w.head? = w.getLast? →
      ∃ c, c ≠ [] ∧ c.Nodup ∧ ∀ e ∈ cycleEdgesOf c, e ∈ E := by
  intro n
  induction n with
  | zero =>
    intro w h1 h2 _ _
    omega
  | succ n ih =>
    intro w hlen h2 hchain hcl
    rcases w with _ | ⟨v, l⟩
    · simp at h2
    have hlne : l ≠ [] := by
      intro hnil
      rw [hnil] at h2
      simp at h2
    have hlast : (v :: l).getLast? = some v := by
      rw [← hcl]
      rfl
    obtain ⟨w', hw'⟩ := List.getLast?_eq_some_iff.mp hlast
    rcases w' with _ | ⟨v', l''⟩
    · exfalso
      rw [List.nil_append] at hw'
      apply hlne
      simpa using hw'
    have hl : l = l'' ++ [v] := by
      have ht := congrArg List.tail hw'
      simpa using ht
    have hpairs : ∀ p ∈ (v :: l).zip l, (p.1, p.2) ∈ E := by
      intro p hp
      have := chain'_zip_pairs hchain p (by simpa using hp)
      simpa using this
    have hedges : ∀ e ∈ cycleEdgesOf (v :: l''), e ∈ E := by
      intro e he
      have hce : cycleEdgesOf (v :: l'') = (v :: l'').zip (l'' ++ [v]) := rfl
      rw [hce, ← hl] at he
      have hsub : e ∈ (v :: l'' ++ [v]).zip l := by
        have hrw : (v :: l'') ++ [v] = v :: l'' ++ [v] := rfl
        rw [← hrw]
        exact zip_append_sub e he
      rw [show v :: l'' ++ [v] = v :: l by simp [hl]] at hsub
      have := hpairs e hsub
      simpa using this
    by_cases hnd : (v :: l'').Nodup
    · exact ⟨v :: l'', by simp, hnd, hedges⟩
    · obtain ⟨p, x, m, s, hdecomp⟩ := exists_dup_decomp hnd
      have hw_eq : v :: l = p ++ ((x :: m) ++ [x]) ++ (s ++ [v]) := by
        rw [hl, show v :: (l'' ++ [v]) = (v :: l'') ++ [v] from rfl, hdecomp]
        simp
      have hchain' : List.Chain' (fun a b => (a, b) ∈ E) ((x :: m) ++ [x]) := by
        rw [hw_eq] at hchain
        rw [List.chain'_append] at hchain
        have h1 := hchain.1
        rw [List.chain'_append] at h1
        exact h1.2.1
      have hlen' : ((x :: m) ++ [x]).length ≤ n := by
        have h1 : (v :: l).length = p.length + m.length + s.length + 3 := by
          rw [hw_eq]
          simp
          omega
        have h2 : ((x :: m) ++ [x]).length = m.length + 2 := by simp
        omega
      refine ih ((x :: m) ++ [x]) hlen' (by simp) hchain' ?_
      rw [List.getLast?_concat]
      rfl

end DoCalc

namespace DoCalc

theorem buildGraph_edge_nodes {cs : List (V × List V)} {e : V × V}
    (he : e ∈ (buildGraph cs).edges) :
    e.1 ∈ (buildGraph cs).nodes ∧ e.2 ∈ (buildGraph cs).nodes := by
  unfold buildGraph at he ⊢
  simp only [List.mem_flatMap] at he ⊢
  obtain ⟨p, hp, he'⟩ := he
  obtain ⟨c, hc, hec⟩ := List.mem_map.mp he'
  constructor
  · refine ⟨p, hp, ?_⟩
    rw [← hec]
    exact List.mem_cons_self _ _
  · refine ⟨p, hp, ?_⟩
    rw [← hec]
    exact List.mem_cons_of_mem _ hc

theorem repaired_edges_spec {cs : List (V × List V)} {cycles : List (List V)}
    {e : V × V} (hcyc : hasCycleB (buildGraph cs) = true)
    (he : e ∈ (buildGraph (repairStructure cs cycles)).edges) :
    e ∈ (buildGraph cs).edges ∧ e ∉ closingEdges cycles := by
  unfold repairStructure at he
  rw [if_neg (by rw [hcyc]; simp)] at he
  unfold buildGraph at he
  simp only [List.mem_flatMap] at he
  obtain ⟨q, hq, he'⟩ := he
  obtain ⟨c, hc, hec⟩ := List.mem_map.mp he'
  obtain ⟨n, hn, hnq⟩ := List.mem_filterMap.mp hq
  split at hnq
  · exact absurd hnq (by simp)
  · have hq' : q = (n, (fixedGraph cs cycles).succs n) := (Option.some.inj hnq).symm
    subst hq'
    have hmem : (n, c) ∈ (fixedGraph cs cycles).edges := mem_succs.mp hc
    have hec' : (n, c) = e := hec
    have hf := List.mem_filter.mp hmem
    rw [← hec']
    refine ⟨hf.1, ?_⟩
    have h2 := hf.2
    rwa [decide_eq_true_iff] at h2

theorem mem_subseqsOf_of_sublist :
    ∀ {s l : List V}, s.Sublist l → s ∈ subseqsOf l := by
  intro s l h
  induction h with
  | slnil => exact List.mem_singleton.mpr rfl
  | cons x hsl ih =>
    exact List.mem_append_left _ ih
  | cons₂ x hsl ih =>
    rename_i s' l'
    exact List.mem_append_right _ (List.mem_map.mpr ⟨s', ih, rfl⟩)

theorem mem_insertsOf_of_mem :
    ∀ {c : List V} {x : V}, x ∈ c → c ∈ insertsOf x (c.erase x) := by
  intro c
  induction c with
  | nil => intro x hx; exact absurd hx (by simp)
  | cons y c' ih =>
    intro x hx
    by_cases hxy : y = x
    · subst hxy
      rw [List.erase_cons_head]
      cases c' with
      | nil => exact List.mem_singleton.mpr rfl
      | cons z zs => exact List.mem_cons_self _ _
    · have hx' : x ∈ c' := by
        rcases List.mem_cons.mp hx with h | h
        · exact absurd h.symm hxy
        · exact h
      rw [List.erase_cons_tail]
      · show y :: c' ∈
          (x :: y :: c'.erase x) :: (insertsOf x (c'.erase x)).map (y :: ·)
        exact List.mem_cons_of_mem _ (List.mem_map.mpr ⟨c', ih hx', rfl⟩)
      · simp [hxy]

theorem mem_permsOf_of_perm :
    ∀ {s c : List V}, c.Perm s → c ∈ permsOf s := by
  intro s
  induction s with
  | nil =>
    intro c h
    rw [List.perm_nil.mp h]
    exact List.mem_singleton.mpr rfl
  | cons x xs ih =>
    intro c h
    have hx : x ∈ c := h.mem_iff.mpr (List.mem_cons_self x xs)
    have herase : (c.erase x).Perm xs := by
      have h1 := h.erase x
      rwa [List.erase_cons_head] at h1
    unfold permsOf
    rw [List.mem_flatMap]
    exact ⟨c.erase x, ih herase, mem_insertsOf_of_mem hx⟩


theorem mem_simpleCyclesOf {g : DiGraph} {c : List V}
    (hb : isSimpleCycleB g c = true) (hsub : ∀ v ∈ c, v ∈ g.nodes)
    (hnd : c.Nodup) : c ∈ simpleCyclesOf g := by
  unfold simpleCyclesOf
  rw [List.mem_filter]
  refine ⟨?_, hb⟩
  have hsub' : c ⊆ g.nodes.dedup := fun v hv => List.mem_dedup.mpr (hsub v hv)
  obtain ⟨l, hperm, hsl⟩ := List.Nodup.subperm hnd hsub'
  rw [List.mem_flatMap]
  exact ⟨l, mem_subseqsOf_of_sublist hsl, mem_permsOf_of_perm hperm.symm⟩

/-- C6: the repair pass of `_validate_causal_structure` is total
(warn-and-continue, never failing), leaves an acyclic structure untouched,
and — given that `nx.simple_cycles` reports every simple cycle (each listed
cycle contributing its closing edge) — removing the closing edge of every
reported cycle leaves an acyclic graph before any search begins. -/
theorem cycle_repair_acyclic (cs : List (V × List V)) (cycles : List (List V))
    (hcover : ∀ c ∈ simpleCyclesOf (buildGraph cs),
      ∃ e ∈ closingEdges cycles, e ∈ cycleEdgesOf c) :
    (hasCycleB (buildGraph cs) = false → repairStructure cs cycles = cs) ∧
      hasCycleB (buildGraph (repairStructure cs cycles)) = false := by
  constructor
  · intro hcyc
    unfold repairStructure
    rw [if_pos hcyc]
  · by_cases hcyc : hasCycleB (buildGraph cs) = false
    · unfold repairStructure
      rw [if_pos hcyc]
      exact hcyc
    · have hcyc' : hasCycleB (buildGraph cs) = true := by
        simpa using hcyc
      by_contra hcfalse
      have hc' : hasCycleB (buildGraph (repairStructure cs cycles)) = true := by
        simpa using hcfalse
      unfold hasCycleB at hc'
      rw [List.any_eq_true] at hc'
      obtain ⟨e, he, hr⟩ := hc'
      have hrtg := dirReachB_iff.mp hr
      obtain ⟨l, hchain, hlast⟩ := rtg_to_chain hrtg
      have hestep : (e.1, e.2) ∈ (buildGraph (repairStructure cs cycles)).edges := by
        rcases e with ⟨a, b⟩
        exact he
      have hwchain : List.Chain'
          (fun a b => (a, b) ∈ (buildGraph (repairStructure cs cycles)).edges)
          (e.1 :: e.2 :: l) := by
        rw [List.chain'_cons]
        exact ⟨hestep, hchain⟩
      have hwcl : (e.1 :: e.2 :: l).head? = (e.1 :: e.2 :: l).getLast? := by
        rw [List.getLast?_cons_cons, hlast]
        rfl
      obtain ⟨c, hcne, hcnd, hedges⟩ := exists_cycle_of_closed_walk
        (e.1 :: e.2 :: l).length (e.1 :: e.2 :: l) le_rfl (by simp) hwchain hwcl
      have hGsub : ∀ e' ∈ cycleEdgesOf c,
          e' ∈ (buildGraph cs).edges ∧ e' ∉ closingEdges cycles :=
        fun e' he' => repaired_edges_spec hcyc' (hedges e' he')
      have hcsimple : isSimpleCycleB (buildGraph cs) c = true := by
        unfold isSimpleCycleB
        rw [Bool.and_eq_true, Bool.and_eq_true]
        refine ⟨⟨?_, ?_⟩, ?_⟩
        · rcases c with _ | ⟨x, xs⟩
          · exact absurd rfl hcne
          · rfl
        · exact decide_eq_true hcnd
        · rw [List.all_eq_true]
          intro e' he'
          exact decide_eq_true (hGsub e' he').1
      have hcnodes : ∀ v ∈ c, v ∈ (buildGraph cs).nodes := by
        intro v hv
        obtain ⟨e', he', hfst⟩ := mem_fst_cycleEdges hv
        have hn := (buildGraph_edge_nodes (hGsub e' he').1).1
        rwa [hfst] at hn
      obtain ⟨ec, hecmem, hecin⟩ := hcover c (mem_simpleCyclesOf hcsimple hcnodes hcnd)
      exact (hGsub ec hecin).2 hecmem

/-- Witness for `cycle_repair_acyclic` on the two-cycle `A ⇄ B` with
`nx.simple_cycles` reporting `[["A", "B"]]`. -/
theorem cycle_repair_acyclic_witness :
    (∀ c ∈ simpleCyclesOf (buildGraph [("A", ["B"]), ("B", ["A"])]),
      ∃ e ∈ closingEdges [["A", "B"]], e ∈ cycleEdgesOf c) ∧
      hasCycleB (buildGraph
        (repairStructure [("A", ["B"]), ("B", ["A"])] [["A", "B"]])) = false :=
  ⟨by decide,
    (cycle_repair_acyclic [("A", ["B"]), ("B", ["A"])] [["A", "B"]] (by decide)).2⟩

end DoCalc

namespace DoCalc

/-! ### The candidate-state space of the BFS (C7)

Every term the search can reach arises from the start term by independently
keeping, converting to a bare observation, or dropping each condition; this
gives a finite state space of at most `3 ^ n` terms. -/

/-- One-condition-at-a-time derivation of a condition list from the start
term's conditions: each condition is kept, converted to the bare
observation of its variable, or dropped. -/
inductive DerivL : List Cond → List Cond → Prop
  | nil : DerivL [] []
  | keep (c : Cond) {cs ds : List Cond} : DerivL cs ds → DerivL (c :: cs) (c :: ds)
  | conv (c : Cond) {cs ds : List Cond} : DerivL cs ds →
      DerivL (c :: cs) (Cond.obs c.var :: ds)
  | drop (c : Cond) {cs ds : List Cond} : DerivL cs ds → DerivL (c :: cs) ds

/-- Executable enumeration of all `DerivL`-derivable condition lists. -/
def derivListsOf : List Cond → List (List Cond)
  | [] => [[]]
  | c :: cs => (derivListsOf cs).flatMap
      (fun ds => [c :: ds, Cond.obs c.var :: ds, ds])

/-- The finite list of all terms the BFS can possibly visit from `start`. -/
def candList (start : Term) : List Term :=
  (derivListsOf start.conds).map (fun ds => mkTerm start.outcome ds)

/-- The pool every derivable condition belongs to. -/
def condPool (start : Term) : List Cond :=
  start.conds ++ start.conds.map (fun c => Cond.obs c.var)

/-- The conditions of the pool have pairwise distinct sort keys (up to
equality): rules out degenerate terms whose distinct conditions are
indistinguishable to the stable sort. -/
def TieFreeL (pool : List Cond) : Prop :=
  ∀ a ∈ pool, ∀ b ∈ pool, condKey a = condKey b → a = b

/-- State keys separate the candidate states. -/
def KeyInjOn (l : List Term) : Prop :=
  ∀ a ∈ l, ∀ b ∈ l, stateKey a = stateKey b → a = b

theorem derivL_iff_mem : ∀ {cs ds : List Cond}, DerivL cs ds ↔ ds ∈ derivListsOf cs := by
  intro cs
  induction cs with
  | nil =>
    intro ds
    constructor
    · intro h
      cases h
      exact List.mem_singleton.mpr rfl
    · intro h
      rw [List.mem_singleton.mp h]
      exact DerivL.nil
  | cons c cs ih =>
    intro ds
    constructor
    · intro h
      cases h with
      | keep _ h' =>
        rename_i ds'
        exact List.mem_flatMap.mpr ⟨ds', ih.mp h', by simp⟩
      | conv _ h' =>
        rename_i ds'
        exact List.mem_flatMap.mpr ⟨ds', ih.mp h', by simp⟩
      | drop _ h' =>
        exact List.mem_flatMap.mpr ⟨ds, ih.mp h', by simp⟩
    · intro h
      obtain ⟨ds', hds', hmem⟩ := List.mem_flatMap.mp h
      simp only [List.mem_cons, List.not_mem_nil, or_false] at hmem
      rcases hmem with h1 | h1 | h1
      · rw [h1]
        exact DerivL.keep c (ih.mpr hds')
      · rw [h1]
        exact DerivL.conv c (ih.mpr hds')
      · rw [h1]
        exact DerivL.drop c (ih.mpr hds')

theorem derivL_refl : ∀ (cs : List Cond), DerivL cs cs := by
  intro cs
  induction cs with
  | nil => exact DerivL.nil
  | cons c cs ih => exact DerivL.keep c ih

theorem derivL_mem_pool {start : Term} :
    ∀ {ds : List Cond}, DerivL start.conds ds → ∀ d ∈ ds, d ∈ condPool start := by
  have main : ∀ {cs ds : List Cond}, DerivL cs ds →
      ∀ d ∈ ds, d ∈ cs ∨ ∃ c ∈ cs, d = Cond.obs c.var := by
    intro cs ds h
    induction h with
    | nil => intro d hd; exact absurd hd (by simp)
    | keep c h' ih =>
      intro d hd
      rcases List.mem_cons.mp hd with h1 | h1
      · exact Or.inl (by rw [h1]; exact List.mem_cons_self _ _)
      · rcases ih d h1 with h2 | ⟨c', hc', hd'⟩
        · exact Or.inl (List.mem_cons_of_mem _ h2)
        · exact Or.inr ⟨c', List.mem_cons_of_mem _ hc', hd'⟩
    | conv c h' ih =>
      intro d hd
      rcases List.mem_cons.mp hd with h1 | h1
      · exact Or.inr ⟨c, List.mem_cons_self _ _, h1⟩
      · rcases ih d h1 with h2 | ⟨c', hc', hd'⟩
        · exact Or.inl (List.mem_cons_of_mem _ h2)
        · exact Or.inr ⟨c', List.mem_cons_of_mem _ hc', hd'⟩
    | drop c h' ih =>
      intro d hd
      rcases ih d hd with h2 | ⟨c', hc', hd'⟩
      · exact Or.inl (List.mem_cons_of_mem _ h2)
      · exact Or.inr ⟨c', List.mem_cons_of_mem _ hc', hd'⟩
  intro ds h d hd
  rcases main h d hd with h1 | ⟨c, hc, hd'⟩
  · exact List.mem_append_left _ h1
  · exact List.mem_append_right _ (List.mem_map.mpr ⟨c, hc, hd'.symm⟩)

theorem keyLEb_antisymm {x y : Nat × String × String}
    (h1 : keyLEb x y = true) (h2 : keyLEb y x = true) : x = y := by
  rcases x with ⟨n₁, v₁, w₁⟩
  rcases y with ⟨n₂, v₂, w₂⟩
  unfold keyLEb at h1 h2
  simp only at h1 h2
  by_cases ha : n₁ < n₂
  · rw [if_neg (by omega), if_pos ha] at h2
    exact absurd h2 (by simp)
  · by_cases hb : n₂ < n₁
    · rw [if_neg (by omega), if_pos hb] at h1
      exact absurd h1 (by simp)
    · have hn : n₁ = n₂ := by omega
      subst hn
      rw [if_neg ha, if_neg ha] at h1 h2
      by_cases hv : strLtB v₁ v₂ = true
      · rw [if_neg (by rw [strLtB_asymm hv]; simp), if_pos hv] at h2
        exact absurd h2 (by simp)
      · by_cases hv' : strLtB v₂ v₁ = true
        · rw [if_neg hv, if_pos hv'] at h1
          exact absurd h1 (by simp)
        · have hveq : v₁ = v₂ :=
            strLtB_eq_of_not (Bool.eq_false_iff.mpr hv) (Bool.eq_false_iff.mpr hv')
          subst hveq
          rw [if_neg hv, if_neg hv'] at h1 h2
          unfold strLeB at h1 h2
          simp only [Bool.not_eq_true'] at h1 h2
          rw [strLtB_eq_of_not h2 h1]

theorem condLE_antisymm_key {a b : Cond} (h1 : condLE a b) (h2 : condLE b a) :
    condKey a = condKey b :=
  keyLEb_antisymm h1 h2

/-- Canonicity of the stable sort on tie-free pools: permuted condition
lists sort identically. -/
theorem sortConds_canon {pool l₁ l₂ : List Cond} (htie : TieFreeL pool)
    (hsub : ∀ c ∈ l₁, c ∈ pool) (hperm : l₁.Perm l₂) :
    sortConds l₁ = sortConds l₂ := by
  have hp : (sortConds l₁).Perm (sortConds l₂) :=
    ((List.perm_insertionSort condLE l₁).trans hperm).trans
      (List.perm_insertionSort condLE l₂).symm
  refine List.Perm.eq_of_sorted ?_ (List.sorted_insertionSort condLE l₁)
    (List.sorted_insertionSort condLE l₂) hp
  intro a b ha hb hab hba
  have ha' : a ∈ pool := hsub a ((List.perm_insertionSort condLE l₁).mem_iff.mp ha)
  have hb' : b ∈ pool := by
    have hb2 := (List.perm_insertionSort condLE l₂).mem_iff.mp hb
    exact hsub b (hperm.mem_iff.mpr hb2)
  exact htie a ha' b hb' (condLE_antisymm_key hab hba)

end DoCalc

namespace DoCalc

instance : Inhabited Cond := ⟨Cond.obs ""⟩

theorem derivL_mem_cases : ∀ {cs ds : List Cond}, DerivL cs ds →
    ∀ d ∈ ds, d ∈ cs ∨ ∃ c ∈ cs, d = Cond.obs c.var := by
  intro cs ds h
  induction h with
  | nil => intro d hd; exact absurd hd (by simp)
  | keep c h' ih =>
    intro d hd
    rcases List.mem_cons.mp hd with h1 | h1
    · exact Or.inl (by rw [h1]; exact List.mem_cons_self _ _)
    · rcases ih d h1 with h2 | ⟨c', hc', hd'⟩
      · exact Or.inl (List.mem_cons_of_mem _ h2)
      · exact Or.inr ⟨c', List.mem_cons_of_mem _ hc', hd'⟩
  | conv c h' ih =>
    intro d hd
    rcases List.mem_cons.mp hd with h1 | h1
    · exact Or.inr ⟨c, List.mem_cons_self _ _, h1⟩
    · rcases ih d h1 with h2 | ⟨c', hc', hd'⟩
      · exact Or.inl (List.mem_cons_of_mem _ h2)
      · exact Or.inr ⟨c', List.mem_cons_of_mem _ hc', hd'⟩
  | drop c h' ih =>
    intro d hd
    rcases ih d hd with h2 | ⟨c', hc', hd'⟩
    · exact Or.inl (List.mem_cons_of_mem _ h2)
    · exact Or.inr ⟨c', List.mem_cons_of_mem _ hc', hd'⟩

/-- A derivable list keeps an intervention only if the start had it. -/
theorem derivL_doC_mem {cs ds : List Cond} {z : V} {val : Option Value}
    (h : DerivL cs ds) (he : Cond.doC z val ∈ ds) : Cond.doC z val ∈ cs := by
  rcases derivL_mem_cases h _ he with h1 | ⟨c, _, hd'⟩
  · exact h1
  · exact absurd hd' (by simp)

theorem derivL_filter {cs ds : List Cond} (p : Cond → Bool) (h : DerivL cs ds) :
    DerivL cs (ds.filter p) := by
  induction h with
  | nil => exact DerivL.nil
  | keep c h' ih =>
    by_cases hp : p c = true
    · rw [List.filter_cons_of_pos hp]
      exact DerivL.keep c ih
    · rw [List.filter_cons_of_neg (by simpa using hp)]
      exact DerivL.drop c ih
  | conv c h' ih =>
    by_cases hp : p (Cond.obs c.var) = true
    · rw [List.filter_cons_of_pos hp]
      exact DerivL.conv c ih
    · rw [List.filter_cons_of_neg (by simpa using hp)]
      exact DerivL.drop c ih
  | drop c h' ih => exact DerivL.drop c ih

theorem derivL_conv_mem {cs ds : List Cond} {z : V} {val : Option Value}
    (h : DerivL cs ds) (he : Cond.doC z val ∈ ds) :
    ∃ ds2, DerivL cs ds2 ∧ ds2.Perm (Cond.obs z :: ds.erase (Cond.doC z val)) := by
  induction h with
  | nil => exact absurd he (by simp)
  | keep c h' ih =>
    rename_i cs' ds'
    by_cases hc : c = Cond.doC z val
    · refine ⟨Cond.obs c.var :: ds', DerivL.conv c h', ?_⟩
      rw [hc, List.erase_cons_head]
      exact List.Perm.refl _
    · have he' : Cond.doC z val ∈ ds' := by
        rcases List.mem_cons.mp he with h1 | h1
        · exact absurd h1.symm hc
        · exact h1
      obtain ⟨ds2, hds2, hp⟩ := ih he'
      refine ⟨c :: ds2, DerivL.keep c hds2, ?_⟩
      rw [List.erase_cons_tail (by simpa using fun hcc => hc hcc)]
      exact (hp.cons c).trans (List.Perm.swap _ _ _)
  | conv c h' ih =>
    rename_i cs' ds'
    have he' : Cond.doC z val ∈ ds' := by
      rcases List.mem_cons.mp he with h1 | h1
      · exact absurd h1 (by simp)
      · exact h1
    obtain ⟨ds2, hds2, hp⟩ := ih he'
    refine ⟨Cond.obs c.var :: ds2, DerivL.conv c hds2, ?_⟩
    rw [List.erase_cons_tail (by simp)]
    exact (hp.cons _).trans (List.Perm.swap _ _ _)
  | drop c h' ih =>
    obtain ⟨ds2, hds2, hp⟩ := ih he
    exact ⟨ds2, DerivL.drop c hds2, hp⟩

theorem derivL_erase_mem {cs ds : List Cond} {e : Cond}
    (h : DerivL cs ds) (he : e ∈ ds) :
    ∃ ds2, DerivL cs ds2 ∧ ds2.Perm (ds.erase e) := by
  induction h with
  | nil => exact absurd he (by simp)
  | keep c h' ih =>
    rename_i cs' ds'
    by_cases hc : c = e
    · refine ⟨ds', DerivL.drop c h', ?_⟩
      rw [hc, List.erase_cons_head]
    · have he' : e ∈ ds' := by
        rcases List.mem_cons.mp he with h1 | h1
        · exact absurd h1.symm hc
        · exact h1
      obtain ⟨ds2, hds2, hp⟩ := ih he'
      refine ⟨c :: ds2, DerivL.keep c hds2, ?_⟩
      rw [List.erase_cons_tail (by simpa using fun hcc => hc hcc)]
      exact hp.cons c
  | conv c h' ih =>
    rename_i cs' ds'
    by_cases hc : Cond.obs c.var = e
    · refine ⟨ds', DerivL.drop c h', ?_⟩
      rw [hc, List.erase_cons_head]
    · have he' : e ∈ ds' := by
        rcases List.mem_cons.mp he with h1 | h1
        · exact absurd h1.symm hc
        · exact h1
      obtain ⟨ds2, hds2, hp⟩ := ih he'
      refine ⟨Cond.obs c.var :: ds2, DerivL.conv c hds2, ?_⟩
      rw [List.erase_cons_tail (by simpa using fun hcc => hc hcc)]
      exact hp.cons _
  | drop c h' ih =>
    obtain ⟨ds2, hds2, hp⟩ := ih he
    exact ⟨ds2, DerivL.drop c hds2, hp⟩

theorem perm_cons_eraseIdx_getD {α : Type} [Inhabited α] :
    ∀ {l : List α} {i : Nat} {e : α}, i < l.length → l.getD i default = e →
      l.Perm (e :: l.eraseIdx i) := by
  intro l
  induction l with
  | nil => intro i e h; exact absurd h (by simp)
  | cons a t ih =>
    intro i e h hg
    cases i with
    | zero =>
      have : a = e := hg
      rw [← this]
      exact List.Perm.refl _
    | succ i =>
      have h' : i < t.length := by simpa using h
      have hg' : t.getD i default = e := hg
      have hp := ih h' hg'
      exact (hp.cons a).trans (List.Perm.swap e a _)

theorem set_perm_cons_eraseIdx {α : Type} :
    ∀ {l : List α} {i : Nat} (x : α), i < l.length →
      (l.set i x).Perm (x :: l.eraseIdx i) := by
  intro l
  induction l with
  | nil => intro i x h; exact absurd h (by simp)
  | cons a t ih =>
    intro i x h
    cases i with
    | zero => exact List.Perm.refl _
    | succ i =>
      have h' : i < t.length := by simpa using h
      exact ((ih x h').cons a).trans (List.Perm.swap x a _)

theorem getD_mem_of_lt {α : Type} [Inhabited α] {l : List α} {i : Nat}
    (h : i < l.length) : l.getD i default ∈ l := by
  rw [List.getD_eq_getElem?_getD, List.getElem?_eq_getElem h]
  exact List.getElem_mem h

theorem eraseIdx_perm_erase {α : Type} [Inhabited α] [DecidableEq α]
    {l : List α} {i : Nat} {e : α} (h : i < l.length)
    (hg : l.getD i default = e) : (l.eraseIdx i).Perm (l.erase e) := by
  have h1 : l.Perm (e :: l.eraseIdx i) := perm_cons_eraseIdx_getD h hg
  have hmem : e ∈ l := by rw [← hg]; exact getD_mem_of_lt h
  have h2 : l.Perm (e :: l.erase e) := List.perm_cons_erase hmem
  exact ((h2.symm.trans h1).cons_inv).symm

/-- Positional content at a `do` index. -/
theorem doIdxs_getD {cs : List Cond} {i : Nat} (h : i ∈ doIdxs cs) :
    i < cs.length ∧ ∃ val, cs.getD i (default : Cond) = .doC (condVarAt cs i) val := by
  unfold doIdxs at h
  obtain ⟨p, hp, hmatch⟩ := List.mem_filterMap.mp h
  rcases p with ⟨j, c⟩
  rcases c with ⟨v, val⟩ | ⟨v, u⟩ | v
  · simp only at hmatch
    injection hmatch with hj
    rw [← hj]
    obtain ⟨hlt, hc⟩ := List.mem_enum hp
    have hgd : cs.getD j (default : Cond) = .doC v val := by
      rw [List.getD_eq_getElem?_getD]
      have hsome : cs[j]? = some (Cond.doC v val) := by
        rw [List.getElem?_eq_some]
        exact ⟨hlt, hc.symm⟩
      rw [hsome]
      rfl
    have hva : condVarAt cs j = v := by
      unfold condVarAt
      have : cs.getD j (Cond.obs "") = .doC v val := by
        rw [List.getD_eq_getElem?_getD]
        have hsome : cs[j]? = some (Cond.doC v val) := by
          rw [List.getElem?_eq_some]
          exact ⟨hlt, hc.symm⟩
        rw [hsome]
        rfl
      rw [this]
      rfl
    exact ⟨hlt, val, by rw [hgd, hva]⟩
  · exact absurd hmatch (by simp)
  · exact absurd hmatch (by simp)

end DoCalc

namespace DoCalc

/-- Abstract membership in the candidate state space. -/
def Cand (start b : Term) : Prop :=
  ∃ ds, DerivL start.conds ds ∧ b = mkTerm start.outcome ds

theorem cand_iff_mem {start b : Term} : Cand start b ↔ b ∈ candList start := by
  constructor
  · intro ⟨ds, hds, hb⟩
    exact List.mem_map.mpr ⟨ds, derivL_iff_mem.mp hds, hb.symm⟩
  · intro h
    obtain ⟨ds, hds, hb⟩ := List.mem_map.mp h
    exact ⟨ds, derivL_iff_mem.mpr hds, hb.symm⟩

theorem cand_start {start : Term} (hss : start.conds = sortConds start.conds) :
    Cand start start := by
  refine ⟨start.conds, derivL_refl _, ?_⟩
  rcases start with ⟨y, cs⟩
  simp only [mkTerm]
  simp only at hss
  rw [← hss]

theorem cand_outcome {start b : Term} (h : Cand start b) : b.outcome = start.outcome := by
  obtain ⟨ds, _, hb⟩ := h
  rw [hb]
  rfl

theorem cand_conds_sorted {start b : Term} (h : Cand start b) :
    ∃ ds, DerivL start.conds ds ∧ b.conds = sortConds ds := by
  obtain ⟨ds, hds, hb⟩ := h
  exact ⟨ds, hds, by rw [hb]; rfl⟩

/-- One raw (pre-filter, pre-dedup) rule application. -/
def rawMem (g : DiGraph) (a b : Term) : Prop :=
  b ∈ apply_rule_1_all g a ∨ b ∈ apply_rule_2_all g a ∨ b ∈ rule3Outs g a

theorem rule3Outs_shape (g : DiGraph) (t : Term) :
    ∀ c ∈ rule3Outs g t, ∃ i ∈ doIdxs t.conds,
      c = mkTerm t.outcome (t.conds.eraseIdx i) := by
  intro c hc
  unfold rule3Outs at hc
  rcases hr : apply_rule_3_all g t with e | outs
  · rw [hr] at hc
    exact absurd hc (by simp)
  · rw [hr] at hc
    exact rule3_shape g t outs hr c hc

/-- Closure of the candidate space under the three enumerators. -/
theorem cand_closed {start : Term} (htie : TieFreeL (condPool start))
    {g : DiGraph} {a b : Term} (ha : Cand start a) (hr : rawMem g a b) :
    Cand start b := by
  obtain ⟨ds, hds, hconds⟩ := cand_conds_sorted ha
  have hout : a.outcome = start.outcome := cand_outcome ha
  have hperm : a.conds.Perm ds := by
    rw [hconds]
    exact (List.perm_insertionSort condLE ds).trans (List.Perm.refl ds)
  have hpool : ∀ c ∈ ds, c ∈ condPool start := derivL_mem_pool hds
  have hpoolA : ∀ c ∈ a.conds, c ∈ condPool start := fun c hc =>
    hpool c (hperm.mem_iff.mp hc)
  rcases hr with hr | hr | hr
  · obtain ⟨w, _, hb⟩ := rule1_shape g a b hr
    refine ⟨ds.filter (fun c =>
      match c with
      | .doC _ _ => true
      | .eqC v _ => decide (v ≠ w)
      | .obs v => decide (v ≠ w)), derivL_filter _ hds, ?_⟩
    rw [hb, hout]
    unfold mkTerm
    unfold dropObsVar
    have hpf : (a.conds.filter (fun c =>
        match c with
        | .doC _ _ => true
        | .eqC v _ => decide (v ≠ w)
        | .obs v => decide (v ≠ w))).Perm (ds.filter (fun c =>
        match c with
        | .doC _ _ => true
        | .eqC v _ => decide (v ≠ w)
        | .obs v => decide (v ≠ w))) := hperm.filter _
    rw [sortConds_canon htie (fun c hc => hpoolA c (List.mem_of_mem_filter hc)) hpf]
  · obtain ⟨idx, hidx, hb⟩ := rule2_emits_bare_observation g a b hr
    obtain ⟨hlt, val, hgd⟩ := doIdxs_getD hidx
    have hz : Cond.doC (condVarAt a.conds idx) val ∈ ds :=
      hperm.mem_iff.mp (by rw [← hgd]; exact getD_mem_of_lt hlt)
    obtain ⟨ds2, hds2, hp2⟩ := derivL_conv_mem hds hz
    refine ⟨ds2, hds2, ?_⟩
    rw [hb, hout]
    unfold mkTerm
    have hstep : (a.conds.set idx (.obs (condVarAt a.conds idx))).Perm ds2 := by
      refine (set_perm_cons_eraseIdx _ hlt).trans ?_
      refine List.Perm.trans ?_ hp2.symm
      refine List.Perm.cons _ ?_
      refine List.Perm.trans (eraseIdx_perm_erase hlt hgd) ?_
      exact hperm.erase _
    have hsub : ∀ c ∈ a.conds.set idx (.obs (condVarAt a.conds idx)),
        c ∈ condPool start := by
      intro c hc
      rcases List.mem_or_eq_of_mem_set hc with hc' | hc'
      · exact hpoolA c hc'
      · rw [hc']
        have hcs : Cond.doC (condVarAt a.conds idx) val ∈ start.conds :=
          derivL_doC_mem hds hz
        exact List.mem_append_right _ (List.mem_map.mpr ⟨_, hcs, rfl⟩)
    rw [sortConds_canon htie hsub hstep]
  · obtain ⟨idx, hidx, hb⟩ := rule3Outs_shape g a b hr
    obtain ⟨hlt, val, hgd⟩ := doIdxs_getD hidx
    have hz : Cond.doC (condVarAt a.conds idx) val ∈ ds :=
      hperm.mem_iff.mp (by rw [← hgd]; exact getD_mem_of_lt hlt)
    obtain ⟨ds2, hds2, hp2⟩ := derivL_erase_mem hds hz
    refine ⟨ds2, hds2, ?_⟩
    rw [hb, hout]
    unfold mkTerm
    have hstep : (a.conds.eraseIdx idx).Perm ds2 := by
      refine List.Perm.trans ?_ hp2.symm
      refine List.Perm.trans (eraseIdx_perm_erase hlt hgd) ?_
      exact hperm.erase _
    have hsub : ∀ c ∈ a.conds.eraseIdx idx, c ∈ condPool start := fun c hc =>
      hpoolA c (List.mem_of_mem_eraseIdx hc)
    rw [sortConds_canon htie hsub hstep]

theorem dedupByKey_subset :
    ∀ (seen : List String) (ps : List (String × Term)) (p : String × Term),
      p ∈ dedupByKey seen ps → p ∈ ps := by
  intro seen ps
  induction ps generalizing seen with
  | nil => intro p hp; exact absurd hp (by simp [dedupByKey])
  | cons q qs ih =>
    intro p hp
    unfold dedupByKey at hp
    split at hp
    · exact List.mem_cons_of_mem _ (ih _ _ hp)
    · rcases List.mem_cons.mp hp with h1 | h1
      · rw [h1]; exact List.mem_cons_self _ _
      · exact List.mem_cons_of_mem _ (ih _ _ h1)

theorem successors_sub_raw {g : DiGraph} {t : Term} {p : String × Term}
    (hp : p ∈ successors g t) : p ∈ rawSuccessors g t ∧ equivB p.2 t = false := by
  unfold successors at hp
  have h1 := dedupByKey_subset _ _ _ hp
  have h2 := List.mem_filter.mp h1
  exact ⟨h2.1, by simpa using h2.2⟩

theorem rawSuccessors_rawMem {g : DiGraph} {t : Term} {p : String × Term}
    (hp : p ∈ rawSuccessors g t) : rawMem g t p.2 := by
  unfold rawSuccessors at hp
  rcases List.mem_append.mp hp with h1 | h1
  · rcases List.mem_append.mp h1 with h2 | h2
    · obtain ⟨o, ho, hpo⟩ := List.mem_map.mp h2
      exact Or.inl (by rw [← hpo]; exact ho)
    · obtain ⟨o, ho, hpo⟩ := List.mem_map.mp h2
      exact Or.inr (Or.inl (by rw [← hpo]; exact ho))
  · obtain ⟨o, ho, hpo⟩ := List.mem_map.mp h1
    exact Or.inr (Or.inr (by rw [← hpo]; exact ho))

theorem cand_closed_successors {start : Term} (htie : TieFreeL (condPool start))
    {g : DiGraph} {a : Term} {p : String × Term} (ha : Cand start a)
    (hp : p ∈ successors g a) : Cand start p.2 :=
  cand_closed htie ha (rawSuccessors_rawMem (successors_sub_raw hp).1)

end DoCalc

namespace DoCalc

/-! ### Specification-level proof chains and the BFS bookkeeping lemmas -/

/-- One legitimate rewrite step: the successor is a raw output of one of
the three rules on the previous term and is not a structural no-op (the
search filters successors equivalent to their parent). -/
def ValidStep (g : DiGraph) (prev : Term) (s : String × Term) : Prop :=
  equivB s.2 prev = false ∧
    ((s.1 = "Do-calculus Rule 1" ∧ s.2 ∈ apply_rule_1_all g prev) ∨
      (s.1 = "Do-calculus Rule 2" ∧ s.2 ∈ apply_rule_2_all g prev) ∨
      (s.1 = "Do-calculus Rule 3" ∧ s.2 ∈ rule3Outs g prev))

/-- A derivation: a chain of valid steps whose last term passes the goal
test of the search. -/
def SpecChain (g : DiGraph) (target : Term) : Term → List (String × Term) → Prop
  | cur, [] => goalHit target cur = true
  | cur, s :: rest => ValidStep g cur s ∧ SpecChain g target s.2 rest

theorem validStep_rawMem {g : DiGraph} {a : Term} {s : String × Term}
    (h : ValidStep g a s) : rawMem g a s.2 := by
  rcases h.2 with ⟨_, h1⟩ | ⟨_, h1⟩ | ⟨_, h1⟩
  · exact Or.inl h1
  · exact Or.inr (Or.inl h1)
  · exact Or.inr (Or.inr h1)

theorem specChain_split {g : DiGraph} {target : Term} :
    ∀ {l₁ : List (String × Term)} {s : String × Term} {l₂ : List (String × Term)}
      {t : Term}, SpecChain g target t (l₁ ++ s :: l₂) → SpecChain g target s.2 l₂ := by
  intro l₁
  induction l₁ with
  | nil => intro s l₂ t h; exact h.2
  | cons a l₁ ih => intro s l₂ t h; exact ih h.2

theorem chain_cand {start : Term} (htie : TieFreeL (condPool start)) {g : DiGraph}
    {target : Term} :
    ∀ {steps : List (String × Term)} {t : Term}, Cand start t →
      SpecChain g target t steps → ∀ s ∈ steps, Cand start s.2 := by
  intro steps
  induction steps with
  | nil => intro t _ _ s hs; exact absurd hs (by simp)
  | cons a rest ih =>
    intro t ht h s hs
    have hca : Cand start a.2 := cand_closed htie ht (validStep_rawMem h.1)
    rcases List.mem_cons.mp hs with h1 | h1
    · rw [h1]; exact hca
    · exact ih hca h.2 s h1

theorem exists_last_sat {α : Type} {P : α → Prop} :
    ∀ {l : List α}, (∃ x ∈ l, P x) →
      ∃ l₁ x l₂, l = l₁ ++ x :: l₂ ∧ P x ∧ ∀ y ∈ l₂, ¬ P y := by
  intro l
  induction l with
  | nil => intro h; obtain ⟨x, hx, _⟩ := h; exact absurd hx (by simp)
  | cons a t ih =>
    intro h
    by_cases ht : ∃ x ∈ t, P x
    · obtain ⟨l₁, x, l₂, heq, hx, hl₂⟩ := ih ht
      exact ⟨a :: l₁, x, l₂, by rw [heq]; rfl, hx, hl₂⟩
    · have ha : P a := by
        obtain ⟨x, hx, hPx⟩ := h
        rcases List.mem_cons.mp hx with h1 | h1
        · rwa [← h1]
        · exact absurd ⟨x, h1, hPx⟩ ht
      exact ⟨[], a, t, rfl, ha, fun y hy hPy => ht ⟨y, hy, hPy⟩⟩

theorem bfsLoop_empty {g : DiGraph} {target : Term} {d : Nat} :
    ∀ (fuel : Nat) (visited : List String),
      bfsLoop g target d fuel [] visited = none := by
  intro fuel visited
  cases fuel with
  | zero => rfl
  | succ f => rfl

/-- The enqueue accumulator only grows. -/
theorem procSuccs_acc_mono {target : Term} {path : ProofPath} :
    ∀ {ss : List (String × Term)} {visited : List String}
      {acc : List (Term × ProofPath)} {v' : List String}
      {e' : List (Term × ProofPath)} {res : Option ProofPath},
      procSuccs target path ss visited acc = (v', e', res) →
      ∃ add, e' = acc ++ add := by
  intro ss
  induction ss with
  | nil =>
    intro visited acc v' e' res h
    simp only [procSuccs] at h
    cases h
    exact ⟨[], by simp⟩
  | cons q ss ih =>
    intro visited acc v' e' res h
    rcases q with ⟨l0, n0⟩
    simp only [procSuccs] at h
    split at h
    · exact ih h
    · split at h
      · cases h
        exact ⟨[], by simp⟩
      · obtain ⟨add, hadd⟩ := ih h
        exact ⟨(n0, path ++ [(l0, n0)]) :: add, by rw [hadd]; simp⟩

/-- The visited list only grows. -/
theorem procSuccs_visited_mono {target : Term} {path : ProofPath} :
    ∀ {ss : List (String × Term)} {visited : List String}
      {acc : List (Term × ProofPath)} {v' : List String}
      {e' : List (Term × ProofPath)} {res : Option ProofPath},
      procSuccs target path ss visited acc = (v', e', res) →
      ∀ x ∈ visited, x ∈ v' := by
  intro ss
  induction ss with
  | nil =>
    intro visited acc v' e' res h x hx
    simp only [procSuccs] at h
    cases h
    exact hx
  | cons q ss ih =>
    intro visited acc v' e' res h x hx
    rcases q with ⟨l0, n0⟩
    simp only [procSuccs] at h
    split at h
    · exact ih h x hx
    · split at h
      · cases h
        exact List.mem_cons_of_mem _ hx
      · exact ih h x (List.mem_cons_of_mem _ hx)

/-- When the loop finishes without a hit, every successor key is visited. -/
theorem procSuccs_none_allkeys {target : Term} {path : ProofPath} :
    ∀ {ss : List (String × Term)} {visited : List String}
      {acc : List (Term × ProofPath)} {v' : List String}
      {e' : List (Term × ProofPath)},
      procSuccs target path ss visited acc = (v', e', none) →
      ∀ p ∈ ss, stateKey p.2 ∈ v' := by
  intro ss
  induction ss with
  | nil => intro visited acc v' e' h p hp; exact absurd hp (by simp)
  | cons q ss ih =>
    intro visited acc v' e' h p hp
    rcases q with ⟨l0, n0⟩
    simp only [procSuccs] at h
    split at h
    · rename_i hin
      rcases List.mem_cons.mp hp with h1 | h1
      · rw [h1]
        exact procSuccs_visited_mono h _ hin
      · exact ih h p h1
    · split at h
      · exact absurd h (by simp)
      · rcases List.mem_cons.mp hp with h1 | h1
        · rw [h1]
          exact procSuccs_visited_mono h _ (List.mem_cons_self _ _)
        · exact ih h p h1

/-- New visited keys all come from the processed successors. -/
theorem procSuccs_newkeys {target : Term} {path : ProofPath} :
    ∀ {ss : List (String × Term)} {visited : List String}
      {acc : List (Term × ProofPath)} {v' : List String}
      {e' : List (Term × ProofPath)} {res : Option ProofPath},
      procSuccs target path ss visited acc = (v', e', res) →
      ∀ x ∈ v', x ∈ visited ∨ ∃ p ∈ ss, x = stateKey p.2 := by
  intro ss
  induction ss with
  | nil =>
    intro visited acc v' e' res h x hx
    simp only [procSuccs] at h
    cases h
    exact Or.inl hx
  | cons q ss ih =>
    intro visited acc v' e' res h x hx
    rcases q with ⟨l0, n0⟩
    simp only [procSuccs] at h
    split at h
    · rcases ih h x hx with h1 | ⟨p, hp, hx'⟩
      · exact Or.inl h1
      · exact Or.inr ⟨p, List.mem_cons_of_mem _ hp, hx'⟩
    · split at h
      · cases h
        rcases List.mem_cons.mp hx with h1 | h1
        · exact Or.inr ⟨(l0, n0), List.mem_cons_self _ _, h1⟩
        · exact Or.inl h1
      · rcases ih h x hx with h1 | ⟨p, hp, hx'⟩
        · rcases List.mem_cons.mp h1 with h2 | h2
          · exact Or.inr ⟨(l0, n0), List.mem_cons_self _ _, h2⟩
          · exact Or.inl h2
        · exact Or.inr ⟨p, List.mem_cons_of_mem _ hp, hx'⟩

/-- Shape of an early return: one goal-hitting successor appended to the
parent's path. -/
theorem procSuccs_some_shape {target : Term} {path : ProofPath} :
    ∀ {ss : List (String × Term)} {visited : List String}
      {acc : List (Term × ProofPath)} {v' : List String}
      {e' : List (Term × ProofPath)} {np : ProofPath},
      procSuccs target path ss visited acc = (v', e', some np) →
      ∃ lbl nxt, (lbl, nxt) ∈ ss ∧ np = path ++ [(lbl, nxt)] ∧
        goalHit target nxt = true := by
  intro ss
  induction ss with
  | nil =>
    intro visited acc v' e' np h
    simp only [procSuccs] at h
    exact absurd h (by simp)
  | cons q ss ih =>
    intro visited acc v' e' np h
    rcases q with ⟨l0, n0⟩
    simp only [procSuccs] at h
    split at h
    · obtain ⟨lbl, nxt, hmem, hshape, hgoal⟩ := ih h
      exact ⟨lbl, nxt, List.mem_cons_of_mem _ hmem, hshape, hgoal⟩
    · split at h
      · rename_i hgoal
        cases h
        exact ⟨l0, n0, List.mem_cons_self _ _, rfl, hgoal⟩
      · obtain ⟨lbl, nxt, hmem, hshape, hgoal⟩ := ih h
        exact ⟨lbl, nxt, List.mem_cons_of_mem _ hmem, hshape, hgoal⟩

/-- Shape of the enqueued entries on a hit-free pass. -/
theorem procSuccs_enq_shape {target : Term} {path : ProofPath} :
    ∀ {ss : List (String × Term)} {visited : List String}
      {acc : List (Term × ProofPath)} {v' : List String}
      {e' : List (Term × ProofPath)},
      procSuccs target path ss visited acc = (v', e', none) →
      ∀ q ∈ e', q ∈ acc ∨ ∃ lbl, (lbl, q.1) ∈ ss ∧ q.2 = path ++ [(lbl, q.1)] ∧
        goalHit target q.1 = false := by
  intro ss
  induction ss with
  | nil =>
    intro visited acc v' e' h q hq
    simp only [procSuccs] at h
    cases h
    exact Or.inl hq
  | cons qq ss ih =>
    intro visited acc v' e' h q hq
    rcases qq with ⟨l0, n0⟩
    simp only [procSuccs] at h
    split at h
    · rcases ih h q hq with h1 | ⟨lbl, hmem, hsh, hg⟩
      · exact Or.inl h1
      · exact Or.inr ⟨lbl, List.mem_cons_of_mem _ hmem, hsh, hg⟩
    · split at h
      · exact absurd h (by simp)
      · rename_i hfresh hgoal
        rcases ih h q hq with h1 | ⟨lbl, hmem, hsh, hg⟩
        · rcases List.mem_append.mp h1 with h2 | h2
          · exact Or.inl h2
          · rw [List.mem_singleton.mp h2]
            exact Or.inr ⟨l0, List.mem_cons_self _ _, rfl, by simpa using hgoal⟩
        · exact Or.inr ⟨lbl, List.mem_cons_of_mem _ hmem, hsh, hg⟩

/-- On a hit-free pass, every fresh successor is enqueued (under key
injectivity of the processed batch). -/
theorem procSuccs_fresh_enq {target : Term} {path : ProofPath} :
    ∀ {ss : List (String × Term)} {visited : List String}
      {acc : List (Term × ProofPath)} {v' : List String}
      {e' : List (Term × ProofPath)},
      procSuccs target path ss visited acc = (v', e', none) →
      (∀ p₁ ∈ ss, ∀ p₂ ∈ ss, stateKey (Prod.snd p₁) = stateKey (Prod.snd p₂) →
        Prod.snd p₁ = Prod.snd p₂) →
      ∀ lbl nxt, (lbl, nxt) ∈ ss → stateKey nxt ∉ visited →
        ∃ lbl2, (nxt, path ++ [(lbl2, nxt)]) ∈ e' := by
  intro ss
  induction ss with
  | nil => intro visited acc v' e' h _ lbl nxt hmem _; exact absurd hmem (by simp)
  | cons q ss ih =>
    intro visited acc v' e' h huniq lbl nxt hmem hfresh
    rcases q with ⟨l0, n0⟩
    have huniq' : ∀ p₁ ∈ ss, ∀ p₂ ∈ ss, stateKey (Prod.snd p₁) = stateKey (Prod.snd p₂) →
        Prod.snd p₁ = Prod.snd p₂ := fun p₁ h₁ p₂ h₂ =>
      huniq p₁ (List.mem_cons_of_mem _ h₁) p₂ (List.mem_cons_of_mem _ h₂)
    simp only [procSuccs] at h
    split at h
    · rename_i hin
      rcases List.mem_cons.mp hmem with h1 | h1
      · have : nxt = n0 := congrArg Prod.snd h1
        rw [this] at hfresh
        exact absurd hin hfresh
      · exact ih h huniq' lbl nxt h1 hfresh
    · split at h
      · exact absurd h (by simp)
      · rename_i hfr hgoal
        by_cases hk : stateKey nxt = stateKey n0
        · have hnn : nxt = n0 :=
            huniq (lbl, nxt) hmem (l0, n0) (List.mem_cons_self _ _) hk
          obtain ⟨add, hadd⟩ := procSuccs_acc_mono h
          refine ⟨l0, ?_⟩
          rw [hadd, hnn]
          exact List.mem_append_left _ (List.mem_append_right _ (by simp))
        · have h1 : (lbl, nxt) ∈ ss := by
            rcases List.mem_cons.mp hmem with h2 | h2
            · exact absurd (congrArg (fun p => stateKey (Prod.snd p)) h2) hk
            · exact h2
          have hfresh' : stateKey nxt ∉ stateKey n0 :: visited := by
            intro hcon
            rcases List.mem_cons.mp hcon with h2 | h2
            · exact hk h2
            · exact hfresh h2
          exact ih h huniq' lbl nxt h1 hfresh'

end DoCalc

namespace DoCalc

/-- Any path the BFS loop returns respects the depth bound. -/
theorem bfsLoop_some_length {g : DiGraph} {target : Term} {d : Nat} :
    ∀ (fuel : Nat) (queue : List (Term × ProofPath)) (visited : List String)
      (p : ProofPath), bfsLoop g target d fuel queue visited = some p →
      p.length ≤ d := by
  intro fuel
  induction fuel with
  | zero => intro queue visited p h; exact absurd h (by simp [bfsLoop])
  | succ f ih =>
    intro queue visited p h
    match queue with
    | [] => exact absurd h (by simp [bfsLoop])
    | (cur, path) :: rest =>
      rw [bfsLoop] at h
      split at h
      · exact ih _ _ _ h
      · rename_i hdepth
        split at h
        · rw [Option.some.inj h] at hdepth
          omega
        · rcases hps : procSuccs target path (successors g cur) visited []
            with ⟨v', e', res⟩
          rw [hps] at h
          cases res with
          | some np =>
            simp only at h
            obtain ⟨lbl, nxt, _, hshape, _⟩ := procSuccs_some_shape hps
            have hlen : np.length = path.length + 1 := by rw [hshape]; simp
            rw [← Option.some.inj h, hlen]
            omega
          | none =>
            simp only at h
            exact ih _ _ _ h

/-- The key-dedup keeps a representative of every fresh key. -/
theorem dedupByKey_covers :
    ∀ (seen : List String) (ps : List (String × Term)) (p : String × Term),
      p ∈ ps → stateKey p.2 ∉ seen →
      ∃ q ∈ dedupByKey seen ps, stateKey q.2 = stateKey p.2 := by
  intro seen ps
  induction ps generalizing seen with
  | nil => intro p hp _; exact absurd hp (by simp)
  | cons q qs ih =>
    intro p hp hfresh
    unfold dedupByKey
    split
    · rename_i hin
      rcases List.mem_cons.mp hp with h1 | h1
      · rw [h1] at hfresh
        exact absurd hin hfresh
      · obtain ⟨r, hr, hk⟩ := ih seen p h1 hfresh
        exact ⟨r, hr, hk⟩
    · rename_i hnin
      rcases List.mem_cons.mp hp with h1 | h1
      · exact ⟨q, List.mem_cons_self _ _, by rw [h1]⟩
      · by_cases hk : stateKey p.2 = stateKey q.2
        · exact ⟨q, List.mem_cons_self _ _, hk.symm⟩
        · have hfresh' : stateKey p.2 ∉ stateKey q.2 :: seen := by
            intro hcon
            rcases List.mem_cons.mp hcon with h2 | h2
            · exact hk h2
            · exact hfresh h2
          obtain ⟨r, hr, hkk⟩ := ih _ p h1 hfresh'
          exact ⟨r, List.mem_cons_of_mem _ hr, hkk⟩

/-- Under key injectivity, every valid step from a candidate term appears
among the deduplicated successors (possibly under another label). -/
theorem validStep_in_successors {start : Term} (htie : TieFreeL (condPool start))
    (hinj : KeyInjOn (candList start)) {g : DiGraph} {a : Term}
    (ha : Cand start a) {s : String × Term} (hs : ValidStep g a s) :
    ∃ lbl, (lbl, s.2) ∈ successors g a := by
  have hraw : (s.1, s.2) ∈ rawSuccessors g a := by
    unfold rawSuccessors
    rcases hs.2 with ⟨hl, h1⟩ | ⟨hl, h1⟩ | ⟨hl, h1⟩
    · exact List.mem_append_left _ (List.mem_append_left _
        (List.mem_map.mpr ⟨s.2, h1, by rw [← hl]⟩))
    · exact List.mem_append_left _ (List.mem_append_right _
        (List.mem_map.mpr ⟨s.2, h1, by rw [← hl]⟩))
    · exact List.mem_append_right _ (List.mem_map.mpr ⟨s.2, h1, by rw [← hl]⟩)
  have hfil : (s.1, s.2) ∈ (rawSuccessors g a).filter (fun p => !equivB p.2 a) :=
    List.mem_filter.mpr ⟨hraw, by simp [hs.1]⟩
  obtain ⟨q, hq, hk⟩ := dedupByKey_covers [] _ (s.1, s.2) hfil (by simp)
  have hq2 : Cand start q.2 := cand_closed_successors htie ha hq
  have hs2 : Cand start s.2 := cand_closed htie ha (validStep_rawMem hs)
  have : q.2 = s.2 := hinj q.2 (cand_iff_mem.mp hq2) s.2 (cand_iff_mem.mp hs2) hk
  exact ⟨q.1, by rw [← this]; exact hq⟩

/-- Key injectivity restricted to one successor batch. -/
theorem successors_key_uniq {start : Term} (htie : TieFreeL (condPool start))
    (hinj : KeyInjOn (candList start)) {g : DiGraph} {a : Term} (ha : Cand start a) :
    ∀ p₁ ∈ successors g a, ∀ p₂ ∈ successors g a,
      stateKey (Prod.snd p₁) = stateKey (Prod.snd p₂) → Prod.snd p₁ = Prod.snd p₂ := by
  intro p₁ h₁ p₂ h₂ hk
  have hc₁ : Cand start p₁.2 := cand_closed_successors htie ha h₁
  have hc₂ : Cand start p₂.2 := cand_closed_successors htie ha h₂
  exact hinj p₁.2 (cand_iff_mem.mp hc₁) p₂.2 (cand_iff_mem.mp hc₂) hk

end DoCalc

namespace DoCalc

theorem pairwise_of_all {α : Type} {R : α → α → Prop} :
    ∀ {l : List α}, (∀ a ∈ l, ∀ b ∈ l, R a b) → List.Pairwise R l := by
  intro l
  induction l with
  | nil => intro _; exact List.Pairwise.nil
  | cons a t ih =>
    intro h
    exact List.Pairwise.cons
      (fun b hb => h a (List.mem_cons_self _ _) b (List.mem_cons_of_mem _ hb))
      (ih fun a' ha' b hb =>
        h a' (List.mem_cons_of_mem _ ha') b (List.mem_cons_of_mem _ hb))

/-- Master invariant argument: if some queue entry still heads a valid
derivation of total budget `k` none of whose states has been visited, any
path the loop returns has length at most `k`. -/
theorem bfsLoop_opt {g : DiGraph} {start target : Term} {d : Nat}
    (htie : TieFreeL (condPool start)) (hinj : KeyInjOn (candList start)) :
    ∀ (fuel : Nat) (queue : List (Term × ProofPath)) (visited : List String)
      (k : Nat) (p : ProofPath),
      k ≤ d →
      (∀ q ∈ queue, Cand start q.1) →
      List.Pairwise (fun a b : Term × ProofPath => a.2.length ≤ b.2.length) queue →
      (∀ a ∈ queue, ∀ b ∈ queue, a.2.length ≤ b.2.length + 1) →
      ((∀ q ∈ queue, goalHit target q.1 = false) ∨
        ∃ q0 : Term × ProofPath, queue = [q0] ∧ q0.2 = []) →
      (∃ q ∈ queue, ∃ steps, SpecChain g target q.1 steps ∧
        q.2.length + steps.length ≤ k ∧ ∀ s ∈ steps, stateKey s.2 ∉ visited) →
      bfsLoop g target d fuel queue visited = some p →
      p.length ≤ k := by
  intro fuel
  induction fuel with
  | zero =>
    intro queue visited k p _ _ _ _ _ _ h
    exact absurd h (by simp [bfsLoop])
  | succ f ih =>
    intro queue visited k p hkd hcand hsorted hwin hq4 hint h
    match queue with
    | [] =>
      obtain ⟨q, hq, _⟩ := hint
      exact absurd hq (by simp)
    | (cur, path) :: rest =>
      have hfront : ∀ b ∈ rest, path.length ≤ b.2.length :=
        fun b hb => (List.pairwise_cons.mp hsorted).1 b hb
      rw [bfsLoop] at h
      split at h
      · -- depth-skip
        rename_i hdepth
        obtain ⟨q, hq, steps, hchain, hbound, hfresh⟩ := hint
        rcases List.mem_cons.mp hq with hq1 | hq1
        · have hql : q.2.length = path.length := by rw [hq1]
          have hlenp := bfsLoop_some_length f rest visited p h
          omega
        · refine ih rest visited k p hkd
            (fun q' hq' => hcand q' (List.mem_cons_of_mem _ hq'))
            (List.pairwise_cons.mp hsorted).2
            (fun a ha b hb => hwin a (List.mem_cons_of_mem _ ha)
              b (List.mem_cons_of_mem _ hb)) ?_
            ⟨q, hq1, steps, hchain, hbound, hfresh⟩ h
          rcases hq4 with h4 | ⟨q0, hque, hq0⟩
          · exact Or.inl (fun q' hq' => h4 q' (List.mem_cons_of_mem _ hq'))
          · injection hque with h1 h2
            exact Or.inl (by rw [h2]; intro q' hq'; exact absurd hq' (by simp))
      · rename_i hdepth
        split at h
        · -- goal hit on dequeue
          rename_i hgoal
          obtain ⟨q, hq, steps, hchain, hbound, hfresh⟩ := hint
          have hqlen : path.length ≤ q.2.length := by
            rcases List.mem_cons.mp hq with h1 | h1
            · rw [h1]
            · exact hfront q h1
          have hp : path = p := Option.some.inj h
          have hpl : path.length = p.length := congrArg List.length hp
          omega
        · rename_i hgoal
          rcases hps : procSuccs target path (successors g cur) visited []
            with ⟨v', e', res⟩
          rw [hps] at h
          have hcur : Cand start cur := hcand (cur, path) (List.mem_cons_self _ _)
          obtain ⟨q, hq, steps, hchain, hbound, hfresh⟩ := hint
          have hqlen : path.length ≤ q.2.length := by
            rcases List.mem_cons.mp hq with h1 | h1
            · rw [h1]
            · exact hfront q h1
          have hsteps_pos : steps ≠ [] := by
            intro hnil
            rw [hnil] at hchain
            rcases hq4 with h4 | ⟨q0, hque, hq0⟩
            · have hch : goalHit target q.1 = true := hchain
              rw [h4 q hq] at hch
              exact Bool.false_ne_true hch
            · injection hque with h1 h2
              rcases List.mem_cons.mp hq with h3 | h3
              · have hch : goalHit target q.1 = true := hchain
                rw [h3] at hch
                exact hgoal hch
              · rw [h2] at h3
                exact absurd h3 (by simp)
          cases res with
          | some np =>
            simp only at h
            obtain ⟨lbl, nxt, _, hshape, _⟩ := procSuccs_some_shape hps
            have hlen : np.length = path.length + 1 := by rw [hshape]; simp
            have hp : np = p := Option.some.inj h
            have hpl : np.length = p.length := congrArg List.length hp
            have : 1 ≤ steps.length := by
              cases steps with
              | nil => exact absurd rfl hsteps_pos
              | cons a t => simp
            omega
          | none =>
            simp only at h
            have henq : ∀ q' ∈ e', ∃ lbl, (lbl, q'.1) ∈ successors g cur ∧
                q'.2 = path ++ [(lbl, q'.1)] ∧ goalHit target q'.1 = false := by
              intro q' hq'
              rcases procSuccs_enq_shape hps q' hq' with h1 | h1
              · exact absurd h1 (by simp)
              · exact h1
            have henqlen : ∀ q' ∈ e', q'.2.length = path.length + 1 := by
              intro q' hq'
              obtain ⟨lbl, _, hsh, _⟩ := henq q' hq'
              rw [hsh]
              simp
            have hrest4 : ∀ q' ∈ rest, goalHit target q'.1 = false := by
              rcases hq4 with h4 | ⟨q0, hque, hq0⟩
              · exact fun q' hq' => h4 q' (List.mem_cons_of_mem _ hq')
              · injection hque with h1 h2
                rw [h2]
                intro q' hq'
                exact absurd hq' (by simp)
            have hrestwin : ∀ a ∈ rest, a.2.length ≤ path.length + 1 :=
              fun a ha => hwin a (List.mem_cons_of_mem _ ha)
                (cur, path) (List.mem_cons_self _ _)
            refine ih (rest ++ e') v' k p hkd ?_ ?_ ?_ ?_ ?_ h
            · intro q' hq'
              rcases List.mem_append.mp hq' with h1 | h1
              · exact hcand q' (List.mem_cons_of_mem _ h1)
              · obtain ⟨lbl, hmem, _, _⟩ := henq q' h1
                exact cand_closed_successors htie hcur hmem
            · refine List.pairwise_append.mpr
                ⟨(List.pairwise_cons.mp hsorted).2, ?_, ?_⟩
              · refine pairwise_of_all ?_
                intro a ha b hb
                rw [henqlen a ha, henqlen b hb]
              · intro a ha b hb
                rw [henqlen b hb]
                exact hrestwin a ha
            · intro a ha b hb
              rcases List.mem_append.mp ha with h1 | h1
              · rcases List.mem_append.mp hb with h2 | h2
                · exact hwin a (List.mem_cons_of_mem _ h1)
                    b (List.mem_cons_of_mem _ h2)
                · rw [henqlen b h2]
                  have := hrestwin a h1
                  omega
              · rcases List.mem_append.mp hb with h2 | h2
                · rw [henqlen a h1]
                  have := hfront b h2
                  omega
                · rw [henqlen a h1, henqlen b h2]
                  omega
            · refine Or.inl ?_
              intro q' hq'
              rcases List.mem_append.mp hq' with h1 | h1
              · exact hrest4 q' h1
              · exact (henq q' h1).choose_spec.2.2
            · -- re-establish the intercept
              by_cases hP : ∃ s ∈ steps, stateKey s.2 ∈ v'
              · obtain ⟨l₁, s, l₂, hdec, hPs, hl₂⟩ := exists_last_sat hP
                have hmem : s ∈ steps := by
                  rw [hdec]
                  exact List.mem_append_right _ (List.mem_cons_self _ _)
                have hscand : Cand start s.2 :=
                  chain_cand htie (hcand q hq) hchain s hmem
                rcases procSuccs_newkeys hps _ hPs with h1 | ⟨pp, hpp, hkey⟩
                · exact absurd h1 (hfresh s hmem)
                · have hppc : Cand start pp.2 :=
                    cand_closed_successors htie hcur hpp
                  have heq : pp.2 = s.2 :=
                    hinj pp.2 (cand_iff_mem.mp hppc) s.2 (cand_iff_mem.mp hscand)
                      hkey.symm
                  have hppfresh : stateKey pp.2 ∉ visited := by
                    rw [heq]
                    exact hfresh s hmem
                  obtain ⟨lbl2, henq2⟩ := procSuccs_fresh_enq hps
                    (successors_key_uniq htie hinj hcur) pp.1 pp.2
                    (by exact hpp) hppfresh
                  rw [heq] at henq2
                  have hchain2 : SpecChain g target s.2 l₂ := by
                    rw [hdec] at hchain
                    exact specChain_split hchain
                  have hslen : steps.length = l₁.length + 1 + l₂.length := by
                    rw [hdec]
                    simp
                    omega
                  refine ⟨(s.2, path ++ [(lbl2, s.2)]),
                    List.mem_append_right _ henq2, l₂, hchain2, ?_, ?_⟩
                  · simp only [List.length_append, List.length_cons,
                      List.length_nil]
                    omega
                  · exact fun s' hs' => hl₂ s' hs'
              · rcases List.mem_cons.mp hq with hq1 | hq1
                · cases steps with
                  | nil => exact absurd rfl hsteps_pos
                  | cons s₁ more =>
                    rw [hq1] at hchain
                    obtain ⟨lbl', hsucc⟩ :=
                      validStep_in_successors htie hinj hcur hchain.1
                    have hkey1 : stateKey s₁.2 ∈ v' :=
                      procSuccs_none_allkeys hps (lbl', s₁.2) hsucc
                    exact absurd ⟨s₁, List.mem_cons_self _ _, hkey1⟩ hP
                · refine ⟨q, List.mem_append_left _ hq1, steps, hchain, hbound,
                    fun s hs hcon => hP ⟨s, hs, hcon⟩⟩

end DoCalc

namespace DoCalc

theorem find_proof_single_len {g : DiGraph} {start target : Term} {d : Nat}
    {p : ProofPath} (h : find_proof_single g start target d = some p) :
    p.length ≤ d := by
  unfold find_proof_single at h
  split at h
  · rw [← Option.some.inj h]
    simp
  · exact bfsLoop_some_length _ _ _ _ h

theorem find_proof_single_depth0 {g : DiGraph} {start target : Term}
    (hne : equivB start target = false) :
    find_proof_single g start target 0 = none := by
  unfold find_proof_single
  rw [if_neg (by simp [hne])]
  cases hf : bfsFuel start with
  | zero => rfl
  | succ f =>
    rw [bfsLoop]
    rw [if_pos (by simp)]
    exact bfsLoop_empty f _

theorem find_proof_single_opt_fresh {g : DiGraph} {start target : Term} {d : Nat}
    (hss : start.conds = sortConds start.conds)
    (htie : TieFreeL (condPool start)) (hinj : KeyInjOn (candList start))
    {steps : List (String × Term)} {p : ProofPath}
    (hfr : ∀ s ∈ steps, stateKey s.2 ≠ stateKey start)
    (hchain : SpecChain g target start steps) (hd : steps.length ≤ d)
    (h : find_proof_single g start target d = some p) : p.length ≤ steps.length := by
  unfold find_proof_single at h
  split at h
  · rw [← Option.some.inj h]
    simp
  · refine bfsLoop_opt htie hinj (bfsFuel start) [(start, [])] [stateKey start]
      steps.length p hd ?_ ?_ ?_ ?_ ?_ h
    · intro q hq
      rw [List.mem_singleton.mp hq]
      exact cand_start hss
    · exact List.pairwise_singleton _ _
    · intro a ha b hb
      rw [List.mem_singleton.mp ha]
      simp
    · exact Or.inr ⟨(start, []), rfl, rfl⟩
    · refine ⟨(start, []), List.mem_singleton.mpr rfl, steps, hchain, by simp, ?_⟩
      intro s hs hcon
      exact hfr s hs (List.mem_singleton.mp hcon)

theorem find_proof_single_opt_aux {g : DiGraph} {start target : Term} {d : Nat}
    (hss : start.conds = sortConds start.conds)
    (htie : TieFreeL (condPool start)) (hinj : KeyInjOn (candList start)) :
    ∀ (n : Nat) (steps : List (String × Term)) (p : ProofPath), steps.length ≤ n →
      SpecChain g target start steps → steps.length ≤ d →
      find_proof_single g start target d = some p → p.length ≤ steps.length := by
  intro n
  induction n with
  | zero =>
    intro steps p hn hchain hd h
    have hnil : steps = [] := List.eq_nil_of_length_eq_zero (by omega)
    subst hnil
    exact find_proof_single_opt_fresh hss htie hinj (by simp) hchain hd h
  | succ m ih =>
    intro steps p hn hchain hd h
    by_cases hrev : ∃ s ∈ steps, stateKey s.2 = stateKey start
    · obtain ⟨l₁, s, l₂, hdec, hPs, hl₂⟩ := exists_last_sat hrev
      have hmem : s ∈ steps := by
        rw [hdec]
        exact List.mem_append_right _ (List.mem_cons_self _ _)
      have hscand : Cand start s.2 :=
        chain_cand htie (cand_start hss) hchain s hmem
      have heq : s.2 = start :=
        hinj s.2 (cand_iff_mem.mp hscand) start
          (cand_iff_mem.mp (cand_start hss)) hPs
      have hchain2 : SpecChain g target start l₂ := by
        rw [hdec] at hchain
        have hsp := specChain_split hchain
        rwa [heq] at hsp
      have hslen : steps.length = l₁.length + 1 + l₂.length := by
        rw [hdec]
        simp
        omega
      have hres := ih l₂ p (by omega) hchain2 (by omega) h
      omega
    · push_neg at hrev
      exact find_proof_single_opt_fresh hss htie hinj hrev hchain hd h

/-- C7: for every single-term search on a start term with canonical
(sorted) conditions, tie-free condition keys and injective state keys over
its finite reachable state space, (a) every returned proof respects the
depth bound, (b) whenever a valid derivation of length `k ≤ d` exists (a
chain of raw rule outputs, none a structural no-op, ending in a term the
goal test accepts), any returned proof has length at most `k` — the BFS
returns a shortest proof within the depth bound — and (c) with depth 0 a
structurally non-equivalent pair yields no proof. -/
theorem bfs_shortest_within_depth (g : DiGraph) (start target : Term) (d : Nat)
    (hss : start.conds = sortConds start.conds)
    (htie : TieFreeL (condPool start)) (hinj : KeyInjOn (candList start)) :
    (∀ p, find_proof_single g start target d = some p → p.length ≤ d) ∧
      (∀ p steps, find_proof_single g start target d = some p →
        SpecChain g target start steps → steps.length ≤ d →
        p.length ≤ steps.length) ∧
      (equivB start target = false → find_proof_single g start target 0 = none) := by
  refine ⟨fun p h => find_proof_single_len h, ?_, fun hne => find_proof_single_depth0 hne⟩
  intro p steps h hchain hd
  exact find_proof_single_opt_aux hss htie hinj steps.length steps p (le_refl _)
    hchain hd h

end DoCalc

namespace DoCalc

instance (pool : List Cond) : Decidable (TieFreeL pool) :=
  inferInstanceAs (Decidable (∀ a ∈ pool, ∀ b ∈ pool, condKey a = condKey b → a = b))

instance (l : List Term) : Decidable (KeyInjOn l) :=
  inferInstanceAs (Decidable (∀ a ∈ l, ∀ b ∈ l, stateKey a = stateKey b → a = b))

/-- Witness for `bfs_shortest_within_depth`: the chain `X → Y`, start term
`P(Y | do(X))`, target `P(Y | X)`, depth 1; the three sanity hypotheses
hold by computation. -/
theorem bfs_shortest_within_depth_witness :
    ((mkTerm (.var "Y") [.doC "X" none]).conds
        = sortConds (mkTerm (.var "Y") [.doC "X" none]).conds)
    ∧ TieFreeL (condPool (mkTerm (.var "Y") [.doC "X" none]))
    ∧ KeyInjOn (candList (mkTerm (.var "Y") [.doC "X" none]))
    ∧ ((∀ p, find_proof_single ⟨["X", "Y"], [("X", "Y")]⟩
          (mkTerm (.var "Y") [.doC "X" none]) (mkTerm (.var "Y") [.obs "X"]) 1
            = some p → p.length ≤ 1) ∧
        (∀ p steps, find_proof_single ⟨["X", "Y"], [("X", "Y")]⟩
            (mkTerm (.var "Y") [.doC "X" none]) (mkTerm (.var "Y") [.obs "X"]) 1
              = some p →
          SpecChain ⟨["X", "Y"], [("X", "Y")]⟩ (mkTerm (.var "Y") [.obs "X"])
            (mkTerm (.var "Y") [.doC "X" none]) steps → steps.length ≤ 1 →
          p.length ≤ steps.length) ∧
        (equivB (mkTerm (.var "Y") [.doC "X" none])
            (mkTerm (.var "Y") [.obs "X"]) = false →
          find_proof_single ⟨["X", "Y"], [("X", "Y")]⟩
            (mkTerm (.var "Y") [.doC "X" none]) (mkTerm (.var "Y") [.obs "X"]) 0
              = none)) :=
  ⟨by decide, by decide, by decide,
    bfs_shortest_within_depth ⟨["X", "Y"], [("X", "Y")]⟩
      (mkTerm (.var "Y") [.doC "X" none]) (mkTerm (.var "Y") [.obs "X"]) 1
      (by decide) (by decide) (by decide)⟩

end DoCalc
